import Mathlib

/-!
Verification of the wxBanker ledger core.

The Python sources are shallowly embedded:
* money strings are lists of characters (`List Char`);
* monetary amounts are rationals (`ℚ`), idealizing Python floats — the
  claims under study are about 2-decimal-exact amounts, where the two agree;
* `%.2f` formatting is modelled by rounding `|x| * 100` half-to-even to an
  integer number of cents (the rounding of binary doubles agrees with this on
  every amount that is exactly representable at 2 decimals);
* the persistence `Store` and the pubsub `Publisher` are external
  collaborators: their invocations are recorded in an explicit event trace;
* Python exceptions are `Except`/`Option` results: an operation that raises
  before mutating returns an error and no new state.
-/

set_option maxRecDepth 8000

namespace WxBanker

/-- Characters removed by Python's default `str.strip()`. -/
def pySpace (c : Char) : Bool :=
  c = ' ' || c = '\t' || c = '\n' || c = '\r' || c = Char.ofNat 11 || c = Char.ofNat 12

/-- Model of Python `str.strip()`: drop whitespace at both ends. -/
def pyStrip (s : List Char) : List Char :=
  ((s.dropWhile pySpace).reverse.dropWhile pySpace).reverse

/-- Decimal digit character for `n < 10`. -/
def digitChar (n : ℕ) : Char := Char.ofNat (48 + n)

/-- Test for an ASCII decimal digit. -/
def isDigitCh (c : Char) : Bool := decide (48 ≤ c.toNat) && decide (c.toNat ≤ 57)

/-- Numeric value of a digit character. -/
def digitVal (c : Char) : ℕ := c.toNat - 48

/-- Decimal digits of a natural number, most significant first.  Fuel-based
structural recursion so that the kernel can evaluate it. -/
def natDigitsAux : ℕ → ℕ → List Char
  | 0, _ => []
  | fuel + 1, n =>
    if n < 10 then [digitChar n] else natDigitsAux fuel (n / 10) ++ [digitChar (n % 10)]

/-- Decimal rendering of a natural number (`str(n)` for `n ≥ 0`). -/
def natDigits (n : ℕ) : List Char := natDigitsAux (n + 1) n

/-- Value of a digit string (most significant digit first). -/
def natOfDigits (l : List Char) : ℕ := l.foldl (fun a c => 10 * a + digitVal c) 0

/-- Exactly two decimal digits, as produced for the fraction part of `%.2f`. -/
def twoDigits (n : ℕ) : List Char := [digitChar (n / 10 % 10), digitChar (n % 10)]

/-- Floor of a rational as an integer, computably (`x.num` and `x.den` are
coprime with positive denominator, so Euclidean division is floor division). -/
def qfloor (x : ℚ) : ℤ := x.num.ediv (x.den : ℤ)

/-- Round a nonnegative rational to the nearest integer, ties to even: the
rounding performed by `%.2f` on the scaled value. -/
def round2 (x : ℚ) : ℕ :=
  let n := (qfloor x).toNat
  let fr := x - ((qfloor x : ℤ) : ℚ)
  if 1 / 2 < fr then n + 1
  else if fr < 1 / 2 then n
  else if n % 2 = 0 then n else n + 1

/-- Model of Python `'%.2f' % q`: sign, integer digits, point, two fraction
digits.  A negative value whose magnitude rounds to zero cents renders with
the sign, as CPython does (for instance `-0.001` gives `-0.00`). -/
def fmt2 (q : ℚ) : List Char :=
  let c := round2 (100 * |q|)
  (if q < 0 then ['-'] else []) ++ natDigits (c / 100) ++ '.' :: twoDigits (c % 100)

/-- Per-currency configuration from `currencies.py`: `Symbol`, `SepChar`,
`DecChar` (the separators are single characters in every currency class). -/
structure Currency where
  symbol : List Char
  sepChar : Char
  decChar : Char
deriving DecidableEq

/-- BaseCurrency: empty symbol, comma separator, period decimal point. -/
def baseCurrency : Currency := ⟨[], ',', '.'⟩

/-- USD: dollar symbol, comma separator, period decimal point. -/
def usd : Currency := ⟨['$'], ',', '.'⟩

/-- Model of Python `str.find(c)`: index of the first occurrence, `-1` if
absent. -/
def pyFind (s : List Char) (c : Char) : ℤ :=
  match s.findIdx? (fun x => x == c) with
  | none => -1
  | some i => (i : ℤ)

/-- Step 2 of `float2str`: do not display negative zeroes (LP: 250151). -/
def step2 (l : List Char) : List Char :=
  if l = ['-', '0', '.', '0', '0'] then ['0', '.', '0', '0'] else l

/-- Step 3 of `float2str`: use the proper decimal character. -/
def step3 (cur : Currency) (l : List Char) : List Char :=
  l.map (fun ch => if ch = '.' then cur.decChar else ch)

/-- Step 4 of `float2str`: add the separating character when
`len(numStr) > 6 + numStr.find('-') + 1`, six characters from the end. -/
def step4 (cur : Currency) (l : List Char) : List Char :=
  if 6 + pyFind l '-' + 1 < (l.length : ℤ) then
    l.take (l.length - 6) ++ cur.sepChar :: l.drop (l.length - 6)
  else l

/-- Shallow embedding of `BaseCurrency.float2str` (currencies.py lines
60-79): render with `%.2f` (`fmt2`); collapse `-0.00` to `0.00` (`step2`);
substitute the decimal character (`step3`); insert the separating character
(`step4`); prepend the symbol; right-justify to `just`. -/
def float2str (cur : Currency) (q : ℚ) (just : ℕ) : List Char :=
  let numStr5 := cur.symbol ++ step4 cur (step3 cur (step2 (fmt2 q)))
  List.replicate (just - numStr5.length) ' ' ++ numStr5

/-- Sign prefix of a formatted number. -/
def sgnL (sign : Bool) : List Char := if sign then ['-'] else []

/-- Model of Python `float(str)` restricted to fixed-point notation:
optional surrounding whitespace, optional sign, digits, optional point and
fraction digits.  (Exponent, `inf` and `nan` forms are never produced by the
formatter and never used by the claims.) -/
def parseUnsigned (t : List Char) : Option ℚ :=
  let ip := t.takeWhile isDigitCh
  let rest := t.drop ip.length
  if rest = [] then (if ip = [] then none else some ((natOfDigits ip : ℚ)))
  else if rest.head? = some '.' then
    (if rest.tail.all isDigitCh && !(decide (ip = []) && decide (rest.tail = [])) then
      some ((natOfDigits ip : ℚ) + (natOfDigits rest.tail : ℚ) / (10 : ℚ) ^ rest.tail.length)
    else none)
  else none

/-- Python `float(...)` on a character list (fixed-point forms). -/
def pyFloat (s : List Char) : Option ℚ :=
  let t := pyStrip s
  if t.head? = some '-' then (parseUnsigned t.tail).map (fun v => -v)
  else if t.head? = some '+' then parseUnsigned t.tail
  else parseUnsigned t

/-- Shallow embedding of `BaseCurrency.str2float` (currencies.py lines
81-96): strip stray spaces; drop `len(Symbol)` leading characters; remove
every separator character; turn the decimal character into a period; convert
to float.  Conversion failure (Python `ValueError`) is `none`. -/
def str2float (cur : Currency) (s : List Char) : Option ℚ :=
  let s1 := pyStrip s
  let s2 := s1.drop cur.symbol.length
  let s3 := s2.filter (fun ch => !(ch == cur.sepChar))
  let s4 := s3.map (fun ch => if ch = cur.decChar then '.' else ch)
  pyFloat s4

/-- Currency configurations for which the round-trip contract can hold: the
separator and decimal characters are not digits and not the minus sign, they
are distinct, and the symbol does not begin with whitespace. -/
def goodConfig (cur : Currency) : Prop :=
  isDigitCh cur.sepChar = false ∧ isDigitCh cur.decChar = false ∧
  cur.sepChar ≠ cur.decChar ∧ cur.sepChar ≠ '-' ∧ cur.decChar ≠ '-' ∧
  cur.symbol.head?.all (fun c => !(pySpace c)) = true

/-- Occurrence of `p` as a contiguous substring of `s`. -/
def occursIn (p s : List Char) : Prop := ∃ u v, s = u ++ (p ++ v)

/-- Reference rendering used to characterize the separator placement: at
most one separator, three digits left of the decimal point, present exactly
when the integer part has at least four digits. -/
def grouped (cur : Currency) (sign : Bool) (a b : ℕ) : List Char :=
  sgnL sign ++
    (if 4 ≤ (natDigits a).length then
      (natDigits a).take ((natDigits a).length - 3) ++
        cur.sepChar :: ((natDigits a).drop ((natDigits a).length - 3) ++
          cur.decChar :: twoDigits b)
     else natDigits a ++ cur.decChar :: twoDigits b)

/-- Calendar date as Python's `datetime.date` (also the value produced by
the date normalizer). -/
structure PyDate where
  year : ℤ
  month : ℤ
  day : ℤ
deriving DecidableEq

/-- Leap year test of the Gregorian calendar (Python `calendar.isleap`). -/
def isLeap (y : ℤ) : Bool := y.emod 4 = 0 && (!(y.emod 100 = 0) || y.emod 400 = 0)

/-- Number of days of a month (`calendar.monthrange(y, m)[1]`). -/
def daysInMonth (y m : ℤ) : ℤ :=
  if m = 2 then (if isLeap y then 29 else 28)
  else if m = 4 ∨ m = 6 ∨ m = 9 ∨ m = 11 then 30
  else 31

/-- Validity condition checked by the `datetime.date` constructor. -/
def validDate (y m d : ℤ) : Bool :=
  decide (1 ≤ y) && decide (y ≤ 9999) && decide (1 ≤ m) && decide (m ≤ 12) &&
  decide (1 ≤ d) && decide (d ≤ daysInMonth y m)

/-- Checked construction of a `datetime.date`; `none` models the `ValueError`
raised on an out-of-range year, month or day. -/
def mkDate (y m d : ℤ) : Option PyDate :=
  if validDate y m d then some ⟨y, m, d⟩ else none

/-- Model of Python `int(str)`: optional surrounding whitespace, optional
sign, at least one decimal digit. -/
def pyInt (t : List Char) : Option ℤ :=
  let s := pyStrip t
  if s.head? = some '-' then
    (if !(decide (s.tail = [])) && s.tail.all isDigitCh then
      some (-(natOfDigits s.tail : ℤ)) else none)
  else if s.head? = some '+' then
    (if !(decide (s.tail = [])) && s.tail.all isDigitCh then
      some ((natOfDigits s.tail : ℤ)) else none)
  else (if !(decide (s = [])) && s.all isDigitCh then some ((natOfDigits s : ℤ)) else none)

/-- Year resolution step of `Transaction._MassageDate` (bankobjects.py lines
319-330): a year below 100 is an abbreviation; with `MAX_FUTURE_ABBR = 10`
it resolves into the current century when at most ten years ahead of today,
and into the previous century otherwise.  Python 2 `/` and `%` on ints are
floor division and modulo, i.e. `Int.ediv` / `Int.emod`. -/
def massageYear (today : PyDate) (year : ℤ) : ℤ :=
  if year < 100 then
    let currentAbr := today.year.emod 100
    let currentBase := today.year.ediv 100
    if year ≤ currentAbr + 10 then year + currentBase * 100
    else year + (currentBase - 1) * 100
  else year

/-- Shallow embedding of the string case of `Transaction._MassageDate`
(bankobjects.py lines 288-331): normalize `/` to `-`, split, parse the
three integers, resolve an abbreviated year, build the date.  `today` is
passed explicitly in place of `datetime.date.today()`. -/
def massageDate (today : PyDate) (s : String) : Option PyDate :=
  let s1 := s.toList.map (fun c => if c = '/' then '-' else c)
  match (s1.splitOn '-').map pyInt with
  | [some y, some m, some d] => mkDate (massageYear today y) m d
  | _ => none

/-- A single ledger entry.  Python compares transactions (`__cmp__`, also
used by `in` and `list.remove`) by the tuple
`(Date, Amount, Description, Parent)`, where the parent accounts compare by
name; the four fields below are exactly that tuple, so structural equality
of `Trans` coincides with Python equality.  The stored date is kept as
given: `_MassageDate` is the identity on already-normalized dates. -/
structure Trans where
  date : PyDate
  amount : ℚ
  description : String
  parent : String
deriving DecidableEq

/-- Strict lexicographic order on pairs from strict orders on the parts. -/
def pairLt {α β : Type} [DecidableEq α] (la : α → α → Bool) (lb : β → β → Bool)
    (x y : α × β) : Bool :=
  la x.1 y.1 || (decide (x.1 = y.1) && lb x.2 y.2)

/-- Strict order on integers as a Bool. -/
def intLt (a b : ℤ) : Bool := decide (a < b)

/-- Strict order on rationals as a Bool. -/
def ratLt (a b : ℚ) : Bool := decide (a < b)

/-- Python string comparison: lexicographic on character code points. -/
def charListLt : List Char → List Char → Bool
  | [], [] => false
  | [], _ :: _ => true
  | _ :: _, [] => false
  | a :: as, b :: bs => if a < b then true else if b < a then false else charListLt as bs

/-- Strict Python order on strings. -/
def strLt (a b : String) : Bool := charListLt a.toList b.toList

/-- Sort key of a transaction: the Python comparison tuple. -/
def transKey (t : Trans) : (ℤ × ℤ × ℤ) × ℚ × String × String :=
  ((t.date.year, t.date.month, t.date.day), t.amount, t.description, t.parent)

/-- Strict order on date triples. -/
def dateTripleLt : (ℤ × ℤ × ℤ) → (ℤ × ℤ × ℤ) → Bool :=
  pairLt intLt (pairLt intLt intLt)

/-- Strict Python order on transactions (tuple comparison). -/
def transLt (a b : Trans) : Bool := pairLt dateTripleLt (pairLt ratLt (pairLt strLt strLt)) (transKey a) (transKey b)

/-- Reflexive Python order on transactions. -/
def rTrans (a b : Trans) : Prop := (transLt a b || decide (a = b)) = true

/-- Reflexive Python order on strings. -/
def rStr (a b : String) : Prop := (strLt a b || decide (a = b)) = true

instance : DecidableRel rTrans := fun a b =>
  inferInstanceAs (Decidable ((transLt a b || decide (a = b)) = true))

instance : DecidableRel rStr := fun a b =>
  inferInstanceAs (Decidable ((strLt a b || decide (a = b)) = true))

/-- Strict date comparison (Python `datetime.date` ordering). -/
def dateLt (a b : PyDate) : Bool := dateTripleLt (a.year, a.month, a.day) (b.year, b.month, b.day)

/-- Reflexive date comparison. -/
def dateLe (a b : PyDate) : Bool := dateLt a b || decide (a = b)

/-- Model of `dateutil.relativedelta`: `d - relativedelta(months=m)` steps
the month index back by `m` (with year borrow) and clamps the day into the
target month. -/
def monthsAgo (d : PyDate) (m : ℕ) : PyDate :=
  let tot : ℤ := d.year * 12 + (d.month - 1) - (m : ℤ)
  let y := tot.ediv 12
  let mo := tot.emod 12 + 1
  ⟨y, mo, min d.day (daysInMonth y mo)⟩

/-- Shallow embedding of `MonthlyAnalyzer.GetDateRange` (analyzers.py lines
29-37), with `today` explicit. -/
def getDateRange (today : PyDate) (months : ℕ) : PyDate × PyDate :=
  let sm := monthsAgo today months
  let em := monthsAgo today 1
  (⟨sm.year, sm.month, 1⟩, ⟨em.year, em.month, daysInMonth em.year em.month⟩)

/-- Decimal rendering of an integer (`'%i' % z`). -/
def intStr (z : ℤ) : List Char :=
  if z < 0 then '-' :: natDigits z.natAbs else natDigits z.toNat

/-- Python `str(z).zfill(2)` for the month numbers used by the analyzer. -/
def zfill2 (z : ℤ) : List Char :=
  let l := intStr z
  List.replicate (2 - l.length) '0' ++ l

/-- Bucket key `"%i.%s" % (year, str(month).zfill(2))`. -/
def keyOf (d : PyDate) : String := String.mk (intStr d.year ++ '.' :: zfill2 d.month)

/-- Model of the bucket dictionary: an insertion-ordered association list;
`addtobucket` adds into an existing bucket or appends a new one. -/
def addToBucket : List (String × ℚ) → String → ℚ → List (String × ℚ)
  | [], k, v => [(k, v)]
  | p :: rest, k, v => if p.1 = k then (p.1, p.2 + v) :: rest else p :: addToBucket rest k v

/-- Accumulation loop of `MonthlyAnalyzer.GetEarnings` over the sorted
transactions: skip dates before the range start, stop at the first date past
the range end, bucket the rest. -/
def earnLoop (st en : PyDate) : List Trans → List (String × ℚ) → List (String × ℚ)
  | [], b => b
  | t :: ts, b =>
    if dateLe st t.date then
      (if dateLt en t.date then b else earnLoop st en ts (addToBucket b (keyOf t.date) t.amount))
    else earnLoop st en ts b

/-- Shallow embedding of `MonthlyAnalyzer.GetEarnings` (analyzers.py lines
39-54).  `sorted(transactions)` is modelled by insertion sort under the
Python comparison order: both are stable sorts of a total preorder (here
even antisymmetric), so they agree pointwise.  The final line returns the
buckets ordered by key ascending. -/
def getEarnings (today : PyDate) (months : ℕ) (ts : List Trans) : List (String × ℚ) :=
  let r := getDateRange today months
  let b := earnLoop r.1 r.2 (List.insertionSort rTrans ts) []
  (List.insertionSort rStr (b.map Prod.fst)).map (fun k => (k, (List.lookup k b).getD 0))

/-- Membership of a transaction date in the analyzer's range. -/
def inRangeB (st en : PyDate) (t : Trans) : Bool := dateLe st t.date && dateLe t.date en

/-- First-occurrence deduplication of a key list. -/
def specKeys (ks : List String) : List String :=
  ks.foldl (fun acc k => if k ∈ acc then acc else acc ++ [k]) []

/-- Total bucketed for one key. -/
def sumKey (l : List Trans) (k : String) : ℚ :=
  ((l.filter (fun t => keyOf t.date == k)).map Trans.amount).sum

/-- Specification-side form of the monthly analysis, from the spec's words:
keep exactly the transactions dated within the computed range, and return,
for each occurring bucket key in ascending key order, the sum of the
amounts of the kept transactions carrying that key. -/
def earningsSpec (today : PyDate) (months : ℕ) (ts : List Trans) : List (String × ℚ) :=
  let r := getDateRange today months
  let flt := ts.filter (inRangeB r.1 r.2)
  (List.insertionSort rStr (specKeys (flt.map (fun t => keyOf t.date)))).map
    (fun k => (k, sumKey flt k))

/-- Events published on the pubsub bus together with the calls made into the
`Store` collaborator, in program order. -/
inductive Ev where
  | storeMake (t : Trans)
  | storeRemoveTrans (t : Trans)
  | transCreated (acct : String) (t : Trans)
  | transRemoved (acct : String) (t : Trans)
  | balanceChanged (acct : String)
  | acctRenamed (oldName : String) (newName : String)
deriving DecidableEq

/-- Exceptions of `bankexceptions` relevant to the claims. -/
inductive BankErr where
  | invalidTransaction (acct : String)
  | accountAlreadyExists (name : String)
deriving DecidableEq

/-- An account: mutable name, cached balance, owned transaction list. -/
structure Account where
  name : String
  balance : ℚ
  transactions : List Trans
deriving DecidableEq

/-- The `AccountList`, the mutable state the account claims range over. -/
abbrev BankState := List Account

/-- Plain (sourceless) `Account.AddTransaction` (bankobjects.py lines
177-207): build the transaction, persist it, append it, publish creation,
then raise the balance (which publishes a balance change). -/
def Account.addTrans (a : Account) (amt : ℚ) (desc : String) (dt : PyDate) :
    Account × Trans × List Ev :=
  let t : Trans := ⟨dt, amt, desc, a.name⟩
  ({ a with transactions := a.transactions ++ [t], balance := a.balance + amt }, t,
   [Ev.storeMake t, Ev.transCreated a.name t, Ev.balanceChanged a.name])

/-- Shallow embedding of `Account.RemoveTransaction` (bankobjects.py lines
209-218).  The membership test is Python `in`, i.e. value equality; on
failure the exception is raised before any mutation, so the error result
carries no new state; on success the store deletion, the removal event and
the balance-change event happen in program order, and `list.remove` deletes
the first equal element (`List.erase`). -/
def Account.removeTrans (a : Account) (t : Trans) : Except BankErr (Account × List Ev) :=
  if t ∈ a.transactions then
    Except.ok
      ({ a with transactions := a.transactions.erase t, balance := a.balance - t.amount },
       [Ev.storeRemoveTrans t, Ev.transRemoved a.name t, Ev.balanceChanged a.name])
  else Except.error (BankErr.invalidTransaction a.name)

/-- Add a transaction to the account at index `i` of the list (out-of-range
indices leave the state unchanged; the code always calls through a live
member account). -/
def addTransState (s : BankState) (i : ℕ) (amt : ℚ) (desc : String) (dt : PyDate) :
    BankState × Option Trans × List Ev :=
  match s[i]? with
  | none => (s, none, [])
  | some a =>
    let r := a.addTrans amt desc dt
    (s.set i r.1, some r.2.1, r.2.2)

/-- The parenthesised caller-supplied description suffix of the transfer
path (`description = " (%s)" % description` when non-empty). -/
def extraDesc (desc : String) : String := if desc = "" then "" else " (" ++ desc ++ ")"

/-- Shallow embedding of the transfer path of `Account.AddTransaction`
(bankobjects.py lines 177-207), destination index `di`, source index `si`:
first the mirror transaction with negated amount goes into the source
account, then this side's transaction into the destination; the returned
pair is (destination transaction, mirror transaction). -/
def transferState (s : BankState) (di si : ℕ) (amt : ℚ) (desc : String) (dt : PyDate) :
    BankState × Option (Trans × Trans) × List Ev :=
  match s[di]?, s[si]? with
  | some d0, some s0 =>
    let extra := extraDesc desc
    let r1 := addTransState s si (-amt) ("Transfer to " ++ d0.name ++ extra) dt
    let r2 := addTransState r1.1 di amt ("Transfer from " ++ s0.name ++ extra) dt
    (r2.1, (r2.2.1.bind fun tD => r1.2.1.map fun tS => (tD, tS)), r1.2.2 ++ r2.2.2)
  | _, _ => (s, none, [])

/-- RemoveTransaction lifted to the account list: on error the exception
propagates and the state is untouched. -/
def removeTransState (s : BankState) (i : ℕ) (t : Trans) : BankState :=
  match s[i]? with
  | none => s
  | some a =>
    match a.removeTrans t with
    | Except.error _ => s
    | Except.ok r => s.set i r.1

/-- Shallow embedding of a live `Transaction.SetAmount` (bankobjects.py
lines 346-354) together with its synchronous consumption: the transaction at
position `j` of account `i` is updated in place, then the
`transaction.updated.amount` event carrying `(transaction, difference)` is
delivered to every account's `onTransactionAmountChanged` handler (lines
220-223), which adds the difference to its balance iff the updated
transaction is a member (Python `in`, value equality) of its own list. -/
def editAmount (s : BankState) (i j : ℕ) (newAmt : ℚ) : BankState :=
  match s[i]? with
  | none => s
  | some a =>
    match a.transactions[j]? with
    | none => s
    | some t =>
      let delta := newAmt - t.amount
      let t2 := { t with amount := newAmt }
      let s1 := s.set i { a with transactions := a.transactions.set j t2 }
      s1.map (fun b => if t2 ∈ b.transactions then { b with balance := b.balance + delta } else b)

/-- Model of `AccountList.AccountIndex` (bankobjects.py lines 91-96): index
of the first account with the given name, `-1` when absent. -/
def accountIndex (s : BankState) (n : String) : ℤ :=
  match s.findIdx? (fun a => a.name == n) with
  | none => -1
  | some i => (i : ℤ)

/-- Shallow embedding of `Account.SetName` (bankobjects.py lines 165-172)
for the account at index `i` (`none` for an out-of-range index): the name is
rejected with `AccountAlreadyExistsException` whenever `AccountIndex` finds
ANY account with that name — the account itself included — and otherwise
updated, publishing `account.renamed.<oldName>` with payload
`(oldName, self)`. -/
def renameState (s : BankState) (i : ℕ) (newName : String) :
    Option (Except BankErr (BankState × Ev)) :=
  (s[i]?).map (fun a =>
    if accountIndex s newName ≠ -1 then Except.error (BankErr.accountAlreadyExists newName)
    else Except.ok (s.set i { a with name := newName }, Ev.acctRenamed a.name newName))

/-- Operations of the balance-invariant claim: add a transaction, transfer,
remove a transaction, edit a member transaction's amount in place. -/
inductive BankOp where
  | add (i : ℕ) (amt : ℚ) (desc : String) (dt : PyDate)
  | transfer (di si : ℕ) (amt : ℚ) (desc : String) (dt : PyDate)
  | removeT (i : ℕ) (t : Trans)
  | edit (i j : ℕ) (amt : ℚ)

/-- Apply one operation to the account list. -/
def applyOp (s : BankState) : BankOp → BankState
  | BankOp.add i amt d dt => (addTransState s i amt d dt).1
  | BankOp.transfer di si amt d dt => (transferState s di si amt d dt).1
  | BankOp.removeT i t => removeTransState s i t
  | BankOp.edit i j amt => editAmount s i j amt

/-- Apply a sequence of operations. -/
def applyOps (s : BankState) (ops : List BankOp) : BankState := ops.foldl applyOp s

/-- Sum of the amounts of a transaction list. -/
def sumAmounts (l : List Trans) : ℚ := (l.map Trans.amount).sum

/-- Well-formedness of an account list: sibling names are distinct (the
`AccountList` uniqueness invariant), every transaction's parent is its
owning account, and every cached balance equals the sum of the owned
amounts. -/
def WFBank (s : BankState) : Prop :=
  (s.map Account.name).Nodup ∧
  ∀ a ∈ s, (∀ t ∈ a.transactions, t.parent = a.name) ∧ a.balance = sumAmounts a.transactions

/-- Accumulation of a transaction list into buckets, the loop body of
`GetEarnings` without the range logic. -/
def bucketFold (b : List (String × ℚ)) (l : List Trans) : List (String × ℚ) :=
  l.foldl (fun acc t => addToBucket acc (keyOf t.date) t.amount) b

/-- Total associated with a key in the bucket list (`buckets[key]`, with 0
for an absent key). -/
def lookupVal (b : List (String × ℚ)) (k : String) : ℚ := (List.lookup k b).getD 0

/-- Rendering of a formatted amount as the reference `grouped` shape: the
collapse case for a negative amount of zero cents, the plain shape
otherwise. -/
def refRender (cur : Currency) (q : ℚ) (just : ℕ) : List Char :=
  let c := round2 (100 * |q|)
  let body :=
    if q < 0 ∧ c = 0 then grouped cur false 0 0
    else grouped cur (decide (q < 0)) (c / 100) (c % 100)
  List.replicate (just - (cur.symbol ++ body).length) ' ' ++ (cur.symbol ++ body)

theorem natDigitsAux_fuel : ∀ f₁ f₂ n, n < f₁ → n < f₂ →
    natDigitsAux f₁ n = natDigitsAux f₂ n := by
  intro f₁
  induction f₁ with
  | zero => intro f₂ n h _; exact absurd h (Nat.not_lt_zero n)
  | succ f ih =>
    intro f₂ n h1 h2
    cases f₂ with
    | zero => exact absurd h2 (Nat.not_lt_zero n)
    | succ g =>
      simp only [natDigitsAux]
      by_cases hn : n < 10
      · simp [hn]
      · have hd : n / 10 < n := Nat.div_lt_self (by omega) (by omega)
        simp only [hn, if_false]
        rw [ih g (n / 10) (by omega) (by omega)]

theorem natDigitsAux_eq_natDigits (f n : ℕ) (h : n < f) :
    natDigitsAux f n = natDigits n :=
  natDigitsAux_fuel f (n + 1) n h (Nat.lt_succ_self n)

theorem isDigitCh_digitChar (n : ℕ) (h : n < 10) : isDigitCh (digitChar n) = true := by
  interval_cases n <;> decide

theorem digitVal_digitChar (n : ℕ) (h : n < 10) : digitVal (digitChar n) = n := by
  interval_cases n <;> decide

theorem natDigitsAux_all_digits : ∀ f n, n < f →
    (natDigitsAux f n).all isDigitCh = true := by
  intro f
  induction f with
  | zero => intro n h; exact absurd h (Nat.not_lt_zero n)
  | succ f ih =>
    intro n h
    simp only [natDigitsAux]
    by_cases hn : n < 10
    · simp [hn, isDigitCh_digitChar n hn]
    · have hd : n / 10 < n := Nat.div_lt_self (by omega) (by omega)
      simp only [hn, if_false, List.all_append]
      rw [ih (n / 10) (by omega)]
      simp [isDigitCh_digitChar (n % 10) (Nat.mod_lt n (by omega))]

theorem natDigits_all_digits (n : ℕ) : (natDigits n).all isDigitCh = true :=
  natDigitsAux_all_digits (n + 1) n (Nat.lt_succ_self n)

theorem natDigitsAux_ne_nil : ∀ f n, n < f → natDigitsAux f n ≠ [] := by
  intro f
  induction f with
  | zero => intro n h; exact absurd h (Nat.not_lt_zero n)
  | succ f _ =>
    intro n _
    simp only [natDigitsAux]
    by_cases hn : n < 10 <;> simp [hn]

theorem natDigits_ne_nil (n : ℕ) : natDigits n ≠ [] :=
  natDigitsAux_ne_nil (n + 1) n (Nat.lt_succ_self n)

theorem natOfDigits_append_single (l : List Char) (c : Char) :
    natOfDigits (l ++ [c]) = 10 * natOfDigits l + digitVal c := by
  simp [natOfDigits, List.foldl_append]

theorem natOfDigits_natDigitsAux : ∀ f n, n < f →
    natOfDigits (natDigitsAux f n) = n := by
  intro f
  induction f with
  | zero => intro n h; exact absurd h (Nat.not_lt_zero n)
  | succ f ih =>
    intro n h
    simp only [natDigitsAux]
    by_cases hn : n < 10
    · simp [hn, natOfDigits, digitVal_digitChar n hn]
    · have hd : n / 10 < n := Nat.div_lt_self (by omega) (by omega)
      simp only [hn, if_false]
      rw [natOfDigits_append_single, ih (n / 10) (by omega),
        digitVal_digitChar (n % 10) (Nat.mod_lt n (by omega))]
      omega

theorem natOfDigits_natDigits (n : ℕ) : natOfDigits (natDigits n) = n :=
  natOfDigits_natDigitsAux (n + 1) n (Nat.lt_succ_self n)

theorem natDigits_eq_single_zero (n : ℕ) (h : natDigits n = ['0']) : n = 0 := by
  have := natOfDigits_natDigits n
  rw [h] at this
  simpa [natOfDigits, digitVal] using this.symm

theorem twoDigits_all_digits (b : ℕ) : (twoDigits b).all isDigitCh = true := by
  simp [twoDigits, isDigitCh_digitChar _ (Nat.mod_lt _ (by omega)),
    isDigitCh_digitChar (b / 10 % 10) (Nat.mod_lt _ (by omega))]

theorem natOfDigits_twoDigits (b : ℕ) (h : b < 100) : natOfDigits (twoDigits b) = b := by
  have h1 : b / 10 % 10 = b / 10 := Nat.mod_eq_of_lt (by omega)
  simp [twoDigits, natOfDigits, digitVal_digitChar _ (Nat.mod_lt _ (by omega)),
    digitVal_digitChar (b / 10 % 10) (Nat.mod_lt _ (by omega))]
  omega

theorem ne_of_digit_of_nondigit {c d : Char} (h1 : isDigitCh c = true)
    (h2 : isDigitCh d = false) : c ≠ d := by
  intro he
  rw [he, h2] at h1
  exact Bool.false_ne_true h1

theorem all_digits_forall {l : List Char} (h : l.all isDigitCh = true) :
    ∀ c ∈ l, isDigitCh c = true := by
  simpa [List.all_eq_true] using h

theorem dropWhile_replicate_space (k : ℕ) (u : List Char) :
    (List.replicate k ' ' ++ u).dropWhile pySpace = u.dropWhile pySpace := by
  induction k with
  | zero => simp
  | succ k ih => simp [List.replicate_succ, List.dropWhile_cons, show pySpace ' ' = true by decide, ih]

theorem dropWhile_of_head_nonspace (u : List Char)
    (h : ∀ c, u.head? = some c → pySpace c = false) : u.dropWhile pySpace = u := by
  cases u with
  | nil => rfl
  | cons a l => simp [List.dropWhile_cons, h a rfl]

theorem pyStrip_pad (k : ℕ) (u : List Char)
    (hh : ∀ c, u.head? = some c → pySpace c = false)
    (hl : ∀ c, u.getLast? = some c → pySpace c = false) :
    pyStrip (List.replicate k ' ' ++ u) = u := by
  unfold pyStrip
  rw [dropWhile_replicate_space, dropWhile_of_head_nonspace u hh,
    dropWhile_of_head_nonspace u.reverse (fun c hc => hl c (by rwa [List.head?_reverse] at hc)),
    List.reverse_reverse]

theorem pyStrip_eq_self (u : List Char)
    (hh : ∀ c, u.head? = some c → pySpace c = false)
    (hl : ∀ c, u.getLast? = some c → pySpace c = false) : pyStrip u = u := by
  simpa using pyStrip_pad 0 u hh hl

theorem pyStrip_all_nonspace (u : List Char)
    (h : u.all (fun c => !(pySpace c)) = true) : pyStrip u = u := by
  rw [List.all_eq_true] at h
  refine pyStrip_eq_self u (fun c hc => ?_) (fun c hc => ?_)
  · have := h c (by cases u <;> simp_all)
    simpa using this
  · have := h c (List.mem_of_mem_getLast? hc)
    simpa using this

theorem qfloor_intCast (m : ℤ) : qfloor ((m : ℚ)) = m := by
  simp only [qfloor, Rat.num_intCast, Rat.den_intCast]
  cases m with
  | ofNat n => simp [Int.ediv]
  | negSucc n => simp [Int.ediv]

theorem round2_intCast (m : ℤ) : round2 ((m : ℚ)) = m.toNat := by
  unfold round2
  rw [qfloor_intCast]
  norm_num

theorem round2_natCast (n : ℕ) : round2 ((n : ℚ)) = n := by
  have := round2_intCast (n : ℤ)
  push_cast at this
  simpa using this

theorem fmt2_eq_sgnL (q : ℚ) :
    fmt2 q = sgnL (decide (q < 0)) ++ natDigits (round2 (100 * |q|) / 100) ++
      '.' :: twoDigits (round2 (100 * |q|) % 100) := by
  by_cases h : q < 0 <;> simp [fmt2, sgnL, h]

theorem not_minus_mem_digits {l : List Char} (h : l.all isDigitCh = true) : '-' ∉ l :=
  fun hm => (ne_of_digit_of_nondigit (all_digits_forall h _ hm) (by decide)) rfl

theorem body_eq_zero_pattern (a b : ℕ) (hb : b < 100)
    (h : natDigits a ++ '.' :: twoDigits b = ['0', '.', '0', '0']) : a = 0 ∧ b = 0 := by
  cases hD : natDigits a with
  | nil => exact absurd hD (natDigits_ne_nil a)
  | cons d0 D =>
    rw [hD] at h
    cases D with
    | nil =>
      simp only [List.cons_append, List.nil_append, twoDigits] at h
      have h0 : d0 = '0' ∧ digitChar (b / 10 % 10) = '0' ∧ digitChar (b % 10) = '0' := by
        simpa using h
      have ha : a = 0 := natDigits_eq_single_zero a (by rw [hD, h0.1])
      have hb1 : b / 10 % 10 = 0 := by
        have := congrArg digitVal h0.2.1
        rwa [digitVal_digitChar _ (Nat.mod_lt _ (by omega)),
          show digitVal '0' = 0 by decide] at this
      have hb2 : b % 10 = 0 := by
        have := congrArg digitVal h0.2.2
        rwa [digitVal_digitChar _ (Nat.mod_lt _ (by omega)),
          show digitVal '0' = 0 by decide] at this
      exact ⟨ha, by omega⟩
    | cons d1 D2 =>
      exfalso
      have hm : d1 ∈ natDigits a := by
        rw [hD]; exact List.mem_cons_of_mem _ (List.mem_cons_self _ _)
      have hdig := all_digits_forall (natDigits_all_digits a) d1 hm
      have hdot : d1 = '.' := by
        have h1 := congrArg (fun l => l[1]?) h
        simpa [List.getElem?_cons_zero, List.getElem?_cons_succ] using h1
      rw [hdot] at hdig
      exact absurd hdig (by decide)

theorem fmt2_eq_neg_zero_iff (q : ℚ) :
    fmt2 q = ['-', '0', '.', '0', '0'] ↔ q < 0 ∧ round2 (100 * |q|) = 0 := by
  constructor
  · intro h
    rw [fmt2_eq_sgnL] at h
    by_cases hq : q < 0
    · rw [decide_eq_true hq] at h
      rw [show sgnL true = ['-'] from rfl, List.singleton_append] at h
      injection h with h1 h2
      obtain ⟨ha, hb⟩ := body_eq_zero_pattern (round2 (100 * |q|) / 100)
        (round2 (100 * |q|) % 100) (Nat.mod_lt _ (by omega)) h2
      exact ⟨hq, by omega⟩
    · exfalso
      rw [decide_eq_false hq] at h
      rw [show sgnL false = [] from rfl, List.nil_append] at h
      cases hD : natDigits (round2 (100 * |q|) / 100) with
      | nil => exact natDigits_ne_nil _ hD
      | cons d0 D =>
        rw [hD] at h
        rw [List.cons_append] at h
        injection h with hd0 h2
        have hdig : isDigitCh d0 = true :=
          all_digits_forall (natDigits_all_digits _) d0 (hD ▸ List.mem_cons_self d0 D)
        rw [hd0] at hdig
        exact absurd hdig (by decide)
  · rintro ⟨hq, hc⟩
    rw [fmt2_eq_sgnL, hc, decide_eq_true hq]
    decide

theorem map_dec_digits (dec : Char) (l : List Char) (hl : l.all isDigitCh = true) :
    l.map (fun ch => if ch = '.' then dec else ch) = l := by
  have h : ∀ x ∈ l, (if x = '.' then dec else x) = x := fun x hx =>
    if_neg (ne_of_digit_of_nondigit (all_digits_forall hl x hx) (by decide))
  rw [List.map_congr_left h]
  simp

theorem step2_of_ne (l : List Char) (h : l ≠ ['-', '0', '.', '0', '0']) : step2 l = l :=
  if_neg h

theorem step3_shape (cur : Currency) (sign : Bool) (a b : ℕ) :
    step3 cur (sgnL sign ++ natDigits a ++ '.' :: twoDigits b) =
      sgnL sign ++ natDigits a ++ cur.decChar :: twoDigits b := by
  simp only [step3, List.map_append, List.map_cons]
  rw [map_dec_digits _ _ (natDigits_all_digits a), map_dec_digits _ _ (twoDigits_all_digits b)]
  cases sign <;> simp [sgnL]

theorem pyFind_cons_self (l : List Char) : pyFind ('-' :: l) '-' = 0 := by
  simp [pyFind, List.findIdx?_cons]

theorem pyFind_not_mem (l : List Char) (h : '-' ∉ l) : pyFind l '-' = -1 := by
  have : l.findIdx? (fun x => x == '-') = none :=
    List.findIdx?_eq_none_iff.mpr (fun a ha => by
      simp only [beq_eq_false_iff_ne, ne_eq]
      exact fun he => h (he ▸ ha))
  simp [pyFind, this]

theorem step4_shape (cur : Currency) (sign : Bool) (a b : ℕ) (hdm : cur.decChar ≠ '-') :
    step4 cur (sgnL sign ++ natDigits a ++ cur.decChar :: twoDigits b) =
      (if 4 ≤ (natDigits a).length then
        sgnL sign ++ ((natDigits a).take ((natDigits a).length - 3) ++
          cur.sepChar :: ((natDigits a).drop ((natDigits a).length - 3) ++
            cur.decChar :: twoDigits b))
       else sgnL sign ++ (natDigits a ++ cur.decChar :: twoDigits b)) := by
  have hDd := natDigits_all_digits a
  have hFd := twoDigits_all_digits b
  have hmemD : '-' ∉ natDigits a := not_minus_mem_digits hDd
  have hmemF : '-' ∉ twoDigits b := not_minus_mem_digits hFd
  have hlenF : (twoDigits b).length = 2 := by simp [twoDigits]
  cases sign with
  | false =>
    rw [show sgnL false = [] from rfl, List.nil_append, List.nil_append]
    have hfind : pyFind (natDigits a ++ cur.decChar :: twoDigits b) '-' = -1 := by
      refine pyFind_not_mem _ (fun hm => ?_)
      rcases List.mem_append.mp hm with h1 | h1
      · exact hmemD h1
      · rcases List.mem_cons.mp h1 with h2 | h2
        · exact hdm h2.symm
        · exact hmemF h2
    have hlen : (natDigits a ++ cur.decChar :: twoDigits b).length = (natDigits a).length + 3 := by
      simp [hlenF]
    rw [step4, hfind, hlen]
    by_cases h4 : 4 ≤ (natDigits a).length
    · rw [if_pos (by push_cast; omega), if_pos h4]
      have e1 : (natDigits a).length + 3 - 6 = (natDigits a).length - 3 := by omega
      rw [e1, List.take_append_eq_append_take, List.drop_append_eq_append_drop,
        show (natDigits a).length - 3 - (natDigits a).length = 0 by omega]
      simp
    · rw [if_neg (by push_cast; omega), if_neg h4]
      simp
  | true =>
    rw [show sgnL true = ['-'] from rfl, List.singleton_append, List.cons_append]
    have hfind : pyFind ('-' :: (natDigits a ++ cur.decChar :: twoDigits b)) '-' = 0 :=
      pyFind_cons_self _
    have hlen : ('-' :: (natDigits a ++ cur.decChar :: twoDigits b)).length =
        (natDigits a).length + 4 := by
      simp [hlenF]
    rw [step4, hfind, hlen]
    by_cases h4 : 4 ≤ (natDigits a).length
    · rw [if_pos (by push_cast; omega), if_pos h4]
      have e1 : (natDigits a).length + 4 - 6 = ((natDigits a).length - 3) + 1 := by omega
      rw [e1, List.take_succ_cons, List.drop_succ_cons, List.take_append_eq_append_take,
        List.drop_append_eq_append_drop,
        show (natDigits a).length - 3 - (natDigits a).length = 0 by omega]
      simp
    · rw [if_neg (by push_cast; omega), if_neg h4]
      simp

theorem float2str_eq_refRender (cur : Currency) (q : ℚ) (just : ℕ)
    (hdm : cur.decChar ≠ '-') : float2str cur q just = refRender cur q just := by
  have hbody : step4 cur (step3 cur (step2 (fmt2 q))) =
      (if q < 0 ∧ round2 (100 * |q|) = 0 then grouped cur false 0 0
       else grouped cur (decide (q < 0)) (round2 (100 * |q|) / 100)
         (round2 (100 * |q|) % 100)) := by
    by_cases h0 : q < 0 ∧ round2 (100 * |q|) = 0
    · rw [if_pos h0, (fmt2_eq_neg_zero_iff q).mpr h0,
        show step2 ['-', '0', '.', '0', '0'] = ['0', '.', '0', '0'] from rfl,
        show (['0', '.', '0', '0'] : List Char) =
          sgnL false ++ natDigits 0 ++ '.' :: twoDigits 0 by decide,
        step3_shape, step4_shape cur false 0 0 hdm]
      rw [grouped]
      split <;> rfl
    · rw [if_neg h0,
        step2_of_ne _ (fun he => h0 ((fmt2_eq_neg_zero_iff q).mp he)), fmt2_eq_sgnL,
        step3_shape, step4_shape cur _ _ _ hdm]
      rw [grouped]
      split <;> rfl
  rw [float2str, refRender]
  simp only [hbody]

theorem pySpace_of_digit {c : Char} (h : isDigitCh c = true) : pySpace c = false := by
  by_contra hs
  have hs2 : pySpace c = true := by
    cases hp : pySpace c
    · exact absurd hp hs
    · rfl
  simp only [pySpace, Bool.or_eq_true, decide_eq_true_eq] at hs2
  rcases hs2 with ((((h1 | h1) | h1) | h1) | h1) | h1 <;>
    rw [h1] at h <;> exact absurd h (by decide)

theorem all_take {l : List Char} {p : Char → Bool} (n : ℕ) (h : l.all p = true) :
    (l.take n).all p = true := by
  rw [List.all_eq_true] at h ⊢
  exact fun a ha => h a (List.take_subset n l ha)

theorem all_drop {l : List Char} {p : Char → Bool} (n : ℕ) (h : l.all p = true) :
    (l.drop n).all p = true := by
  rw [List.all_eq_true] at h ⊢
  exact fun a ha => h a (List.drop_subset n l ha)

theorem filter_digits (sep : Char) (l : List Char) (hl : l.all isDigitCh = true)
    (hs : isDigitCh sep = false) : l.filter (fun ch => !(ch == sep)) = l := by
  rw [List.filter_eq_self]
  intro a ha
  simp only [Bool.not_eq_eq_eq_not, Bool.not_true, beq_eq_false_iff_ne, ne_eq]
  exact ne_of_digit_of_nondigit (all_digits_forall hl a ha) hs

theorem takeWhile_digits (l : List Char) (x : Char) (r : List Char)
    (hl : l.all isDigitCh = true) (hx : isDigitCh x = false) :
    (l ++ x :: r).takeWhile isDigitCh = l := by
  induction l with
  | nil => simp [List.takeWhile_cons, hx]
  | cons a l ih =>
    simp only [List.all_cons, Bool.and_eq_true] at hl
    simp [List.takeWhile_cons, hl.1, ih hl.2]

theorem parseUnsigned_fixed (a b : ℕ) (hb : b < 100) :
    parseUnsigned (natDigits a ++ '.' :: twoDigits b) = some ((a : ℚ) + (b : ℚ) / 100) := by
  have htw : (natDigits a ++ '.' :: twoDigits b).takeWhile isDigitCh = natDigits a :=
    takeWhile_digits _ _ _ (natDigits_all_digits a) (by decide)
  have hdr : (natDigits a ++ '.' :: twoDigits b).drop (natDigits a).length =
      '.' :: twoDigits b := List.drop_left _ _
  simp only [parseUnsigned, htw, hdr]
  rw [if_neg (by simp), if_pos (by rw [List.head?_cons]),
    if_pos (by simp [List.tail_cons, twoDigits_all_digits b, natDigits_ne_nil a])]
  simp only [List.tail_cons, natOfDigits_natDigits, natOfDigits_twoDigits b hb]
  norm_num [twoDigits]

theorem pyStrip_body (sign : Bool) (a b : ℕ) :
    pyStrip (sgnL sign ++ natDigits a ++ '.' :: twoDigits b) =
      sgnL sign ++ natDigits a ++ '.' :: twoDigits b := by
  refine pyStrip_eq_self _ (fun c hc => ?_) (fun c hc => ?_)
  · cases sign with
    | true =>
      rw [show sgnL true = ['-'] from rfl, List.singleton_append, List.cons_append,
        List.head?_cons] at hc
      rw [← Option.some.inj hc]
      decide
    | false =>
      rw [show sgnL false = [] from rfl, List.nil_append] at hc
      cases hD : natDigits a with
      | nil => exact absurd hD (natDigits_ne_nil a)
      | cons d0 D =>
        have hhead : (natDigits a ++ '.' :: twoDigits b).head? = some d0 := by
          rw [hD, List.cons_append, List.head?_cons]
        rw [hhead] at hc
        rw [← Option.some.inj hc]
        exact pySpace_of_digit
          (all_digits_forall (natDigits_all_digits a) d0 (hD ▸ List.mem_cons_self d0 D))
  · have : (sgnL sign ++ natDigits a ++ '.' :: twoDigits b).getLast? =
        some (digitChar (b % 10)) := by
      rw [List.append_assoc, List.getLast?_append]
      simp [twoDigits]
    rw [this] at hc
    cases hc
    exact pySpace_of_digit (isDigitCh_digitChar _ (Nat.mod_lt _ (by omega)))

theorem pyFloat_signed (sign : Bool) (a b : ℕ) (hb : b < 100) :
    pyFloat (sgnL sign ++ natDigits a ++ '.' :: twoDigits b) =
      some ((if sign then (-1 : ℚ) else 1) * ((a : ℚ) + (b : ℚ) / 100)) := by
  simp only [pyFloat, pyStrip_body]
  cases sign with
  | true =>
    rw [show sgnL true = ['-'] from rfl, List.singleton_append, List.cons_append]
    rw [if_pos (by rw [List.head?_cons]), List.tail_cons, parseUnsigned_fixed a b hb]
    norm_num
  | false =>
    rw [show sgnL false = [] from rfl, List.nil_append]
    cases hD : natDigits a with
    | nil => exact absurd hD (natDigits_ne_nil a)
    | cons d0 D =>
      have hd0 : isDigitCh d0 = true :=
        all_digits_forall (natDigits_all_digits a) d0 (hD ▸ List.mem_cons_self d0 D)
      have hhead : (natDigits a ++ '.' :: twoDigits b).head? = some d0 := by
        rw [hD, List.cons_append, List.head?_cons]
      have hne1 : ¬((natDigits a ++ '.' :: twoDigits b).head? = some '-') := by
        rw [hhead]
        intro hc
        rw [Option.some.inj hc] at hd0
        exact absurd hd0 (by decide)
      have hne2 : ¬((natDigits a ++ '.' :: twoDigits b).head? = some '+') := by
        rw [hhead]
        intro hc
        rw [Option.some.inj hc] at hd0
        exact absurd hd0 (by decide)
      rw [← hD]
      rw [if_neg hne1, if_neg hne2, parseUnsigned_fixed a b hb]
      norm_num

theorem grouped_head_nonspace (cur : Currency) (sign : Bool) (a b : ℕ) :
    ∀ c, (grouped cur sign a b).head? = some c → pySpace c = false := by
  intro c hc
  cases sign with
  | true =>
    rw [grouped, show sgnL true = ['-'] from rfl, List.singleton_append, List.head?_cons] at hc
    rw [← Option.some.inj hc]
    decide
  | false =>
    rw [grouped, show sgnL false = [] from rfl, List.nil_append] at hc
    cases hD : natDigits a with
    | nil => exact absurd hD (natDigits_ne_nil a)
    | cons d0 D =>
      have hd0 : isDigitCh d0 = true :=
        all_digits_forall (natDigits_all_digits a) d0 (hD ▸ List.mem_cons_self d0 D)
      by_cases h4 : 4 ≤ (natDigits a).length
      · rw [if_pos h4] at hc
        have hk : (natDigits a).take ((natDigits a).length - 3) =
            d0 :: D.take ((natDigits a).length - 4) := by
          rw [show (natDigits a).length - 3 = ((natDigits a).length - 4) + 1 by
            rw [hD] at h4 ⊢; omega, hD, List.take_succ_cons]
        rw [hk, List.cons_append, List.head?_cons] at hc
        rw [← Option.some.inj hc]
        exact pySpace_of_digit hd0
      · rw [if_neg h4, hD, List.cons_append, List.head?_cons] at hc
        rw [← Option.some.inj hc]
        exact pySpace_of_digit hd0

theorem getLast?_append_end (u : List Char) {v : List Char} {y : Char}
    (h : v.getLast? = some y) : (u ++ v).getLast? = some y := by
  rw [List.getLast?_append, h]
  rfl

theorem getLast?_cons_append_end (s : Char) {v : List Char} {y : Char}
    (h : v.getLast? = some y) : (s :: v).getLast? = some y := by
  rw [← List.singleton_append]
  exact getLast?_append_end [s] h

theorem getLast?_dec_twoDigits (dec : Char) (b : ℕ) :
    (dec :: twoDigits b).getLast? = some (digitChar (b % 10)) := rfl

theorem grouped_getLast_nonspace (cur : Currency) (sign : Bool) (a b : ℕ) :
    ∀ c, (grouped cur sign a b).getLast? = some c → pySpace c = false := by
  intro c hc
  have hgl : (grouped cur sign a b).getLast? = some (digitChar (b % 10)) := by
    rw [grouped]
    by_cases h4 : 4 ≤ (natDigits a).length
    · rw [if_pos h4]
      exact getLast?_append_end _ (getLast?_append_end _ (getLast?_cons_append_end _
        (getLast?_append_end _ (getLast?_dec_twoDigits _ b))))
    · rw [if_neg h4]
      exact getLast?_append_end _ (getLast?_append_end _ (getLast?_dec_twoDigits _ b))
  rw [hgl] at hc
  rw [← Option.some.inj hc]
  exact pySpace_of_digit (isDigitCh_digitChar _ (Nat.mod_lt _ (by omega)))

theorem filter_grouped (cur : Currency) (sign : Bool) (a b : ℕ)
    (hs : isDigitCh cur.sepChar = false) (hsd : cur.sepChar ≠ cur.decChar)
    (hsm : cur.sepChar ≠ '-') :
    (grouped cur sign a b).filter (fun ch => !(ch == cur.sepChar)) =
      sgnL sign ++ natDigits a ++ cur.decChar :: twoDigits b := by
  have hsg : (sgnL sign).filter (fun ch => !(ch == cur.sepChar)) = sgnL sign := by
    cases sign with
    | true =>
      have hkeep : (!('-' == cur.sepChar)) = true := by
        simp only [Bool.not_eq_eq_eq_not, Bool.not_true, beq_eq_false_iff_ne, ne_eq]
        exact fun h => hsm h.symm
      rw [show sgnL true = ['-'] from rfl, List.filter_cons, if_pos hkeep, List.filter_nil]
    | false => rfl
  have hdecK : (!(cur.decChar == cur.sepChar)) = true := by
    simp only [Bool.not_eq_eq_eq_not, Bool.not_true, beq_eq_false_iff_ne, ne_eq]
    exact fun h => hsd (h.symm)
  rw [grouped]
  by_cases h4 : 4 ≤ (natDigits a).length
  · rw [if_pos h4]
    rw [List.filter_append, hsg, List.filter_append, List.filter_cons,
      if_neg (by simp), List.filter_append, List.filter_cons, if_pos hdecK]
    rw [filter_digits _ _ (all_take _ (natDigits_all_digits a)) hs,
      filter_digits _ _ (all_drop _ (natDigits_all_digits a)) hs,
      filter_digits _ _ (twoDigits_all_digits b) hs]
    rw [show (natDigits a).take ((natDigits a).length - 3) ++
        ((natDigits a).drop ((natDigits a).length - 3) ++ cur.decChar :: twoDigits b) =
        natDigits a ++ cur.decChar :: twoDigits b by
      rw [← List.append_assoc, List.take_append_drop]]
    rw [List.append_assoc]
  · rw [if_neg h4]
    rw [List.filter_append, hsg, List.filter_append, List.filter_cons, if_pos hdecK]
    rw [filter_digits _ _ (natDigits_all_digits a) hs,
      filter_digits _ _ (twoDigits_all_digits b) hs]
    rw [List.append_assoc]

theorem map_back (cur : Currency) (sign : Bool) (a b : ℕ)
    (hdec : isDigitCh cur.decChar = false) (hdm : cur.decChar ≠ '-') :
    (sgnL sign ++ natDigits a ++ cur.decChar :: twoDigits b).map
      (fun ch => if ch = cur.decChar then '.' else ch) =
      sgnL sign ++ natDigits a ++ '.' :: twoDigits b := by
  have hmd : ∀ l : List Char, l.all isDigitCh = true →
      l.map (fun ch => if ch = cur.decChar then '.' else ch) = l := by
    intro l hl
    have h : ∀ x ∈ l, (if x = cur.decChar then '.' else x) = x := fun x hx =>
      if_neg (ne_of_digit_of_nondigit (all_digits_forall hl x hx) hdec)
    rw [List.map_congr_left h]
    simp
  simp only [List.map_append, List.map_cons]
  rw [hmd _ (natDigits_all_digits a), hmd _ (twoDigits_all_digits b)]
  have hmd2 : (('-' : Char) = cur.decChar) ↔ False := ⟨fun h => hdm h.symm, False.elim⟩
  cases sign <;> simp [sgnL, hmd2]

theorem round2_cents (n : ℤ) : round2 (100 * |(n : ℚ) / 100|) = n.natAbs := by
  have h1 : (100 : ℚ) * |(n : ℚ) / 100| = ((|n| : ℤ) : ℚ) := by
    rw [abs_div]
    push_cast
    rw [show |(100 : ℚ)| = 100 by norm_num]
    ring
  rw [h1, round2_intCast, Int.abs_eq_natAbs, Int.toNat_natCast]

theorem cents_val (c : ℕ) : ((c / 100 : ℕ) : ℚ) + ((c % 100 : ℕ) : ℚ) / 100 = (c : ℚ) / 100 := by
  have h : (100 : ℚ) * ((c / 100 : ℕ) : ℚ) + ((c % 100 : ℕ) : ℚ) = (c : ℚ) := by
    exact_mod_cast Nat.div_add_mod c 100
  calc ((c / 100 : ℕ) : ℚ) + ((c % 100 : ℕ) : ℚ) / 100
      = ((100 : ℚ) * ((c / 100 : ℕ) : ℚ) + ((c % 100 : ℕ) : ℚ)) / 100 := by ring
    _ = (c : ℚ) / 100 := by rw [h]

theorem str2float_of_float2str (cur : Currency) (hc : goodConfig cur) (n : ℤ) (just : ℕ) :
    str2float cur (float2str cur ((n : ℚ) / 100) just) = some ((n : ℚ) / 100) := by
  obtain ⟨hs, hdec, hsd, hsm, hdm, hsym⟩ := hc
  have hq0 : ¬(((n : ℚ) / 100) < 0 ∧ round2 (100 * |(n : ℚ) / 100|) = 0) := by
    rintro ⟨hlt, hr⟩
    rw [round2_cents] at hr
    have hq : (n : ℚ) < 0 := by
      by_contra h
      push_neg at h
      have : (0 : ℚ) ≤ (n : ℚ) / 100 := by positivity
      linarith
    have hn : n < 0 := by exact_mod_cast hq
    omega
  rw [float2str_eq_refRender cur _ just hdm, refRender]
  simp only [if_neg hq0]
  rw [round2_cents]
  set sg := decide ((n : ℚ) / 100 < 0) with hsg
  set B := grouped cur sg (n.natAbs / 100) (n.natAbs % 100) with hB
  have hgne : B ≠ [] := by
    rw [hB, grouped]
    cases sg <;> by_cases h4 : 4 ≤ (natDigits (n.natAbs / 100)).length <;>
      simp [sgnL, h4, natDigits_ne_nil]
  have hstrip : pyStrip (List.replicate (just - (cur.symbol ++ B).length) ' ' ++
      (cur.symbol ++ B)) = cur.symbol ++ B := by
    refine pyStrip_pad _ _ (fun c hc2 => ?_) (fun c hc2 => ?_)
    · cases hsy : cur.symbol with
      | nil =>
        rw [hsy, List.nil_append] at hc2
        exact grouped_head_nonspace cur _ _ _ c hc2
      | cons s0 S =>
        rw [hsy, List.cons_append, List.head?_cons] at hc2
        rw [hsy] at hsym
        simp only [List.head?_cons, Option.all_some] at hsym
        rw [← Option.some.inj hc2]
        simpa using hsym
    · rw [List.getLast?_append] at hc2
      obtain ⟨y, hy⟩ : ∃ y, B.getLast? = some y := by
        cases hg : B.getLast? with
        | none => exact absurd (List.getLast?_eq_none_iff.mp hg) hgne
        | some y => exact ⟨y, rfl⟩
      rw [hy] at hc2
      simp only [Option.or_some] at hc2
      rw [← Option.some.inj hc2]
      exact grouped_getLast_nonspace cur _ _ _ y hy
  simp only [str2float]
  rw [hstrip, List.drop_left, hB,
    filter_grouped cur _ _ _ hs hsd hsm, map_back cur _ _ _ hdec hdm,
    pyFloat_signed _ _ _ (Nat.mod_lt _ (by omega))]
  congr 1
  rw [cents_val]
  by_cases hneg : n < 0
  · have hsgt : sg = true := by
      rw [hsg]
      apply decide_eq_true
      have : (n : ℚ) < 0 := by exact_mod_cast hneg
      exact div_neg_of_neg_of_pos this (by norm_num)
    have habs : ((n.natAbs : ℕ) : ℚ) = -(n : ℚ) := by
      have h2 : ((n.natAbs : ℕ) : ℤ) = -n := by omega
      calc ((n.natAbs : ℕ) : ℚ) = (((n.natAbs : ℕ) : ℤ) : ℚ) := by rw [Int.cast_natCast]
        _ = ((-n : ℤ) : ℚ) := by rw [h2]
        _ = -(n : ℚ) := by push_cast; ring
    rw [hsgt, if_pos rfl, habs]
    ring
  · have hsgf : sg = false := by
      rw [hsg]
      apply decide_eq_false
      push_neg at hneg
      have : (0 : ℚ) ≤ (n : ℚ) := by exact_mod_cast hneg
      intro hlt
      have : (0 : ℚ) ≤ (n : ℚ) / 100 := by positivity
      linarith
    have habs : ((n.natAbs : ℕ) : ℚ) = (n : ℚ) := by
      have h2 : ((n.natAbs : ℕ) : ℤ) = n := by omega
      calc ((n.natAbs : ℕ) : ℚ) = (((n.natAbs : ℕ) : ℤ) : ℚ) := by rw [Int.cast_natCast]
        _ = (n : ℚ) := by rw [h2]
    rw [hsgf, if_neg (by simp), habs]
    ring

theorem count_eq_zero_of_digits (l : List Char) (hl : l.all isDigitCh = true) (x : Char)
    (hx : isDigitCh x = false) : l.count x = 0 :=
  List.count_eq_zero.mpr (fun hm =>
    (ne_of_digit_of_nondigit (all_digits_forall hl x hm) hx) rfl)

theorem count_sep_grouped (cur : Currency) (sign : Bool) (a b : ℕ)
    (hs : isDigitCh cur.sepChar = false) (hsm : cur.sepChar ≠ '-')
    (hsd : cur.sepChar ≠ cur.decChar) :
    (grouped cur sign a b).count cur.sepChar ≤ 1 := by
  have hsgn : (sgnL sign).count cur.sepChar = 0 := by
    cases sign with
    | true =>
      rw [show sgnL true = ['-'] from rfl]
      exact List.count_eq_zero.mpr (by simp [hsm])
    | false => rfl
  have hdecF : (cur.decChar :: twoDigits b).count cur.sepChar = 0 := by
    rw [List.count_cons, count_eq_zero_of_digits _ (twoDigits_all_digits b) _ hs]
    simp [beq_eq_false_iff_ne, Ne.symm hsd]
  rw [grouped, List.count_append, hsgn]
  by_cases h4 : 4 ≤ (natDigits a).length
  · rw [if_pos h4, List.count_append, List.count_cons, List.count_append,
      count_eq_zero_of_digits _ (all_take _ (natDigits_all_digits a)) _ hs,
      count_eq_zero_of_digits _ (all_drop _ (natDigits_all_digits a)) _ hs, hdecF]
    simp
  · rw [if_neg h4, List.count_append,
      count_eq_zero_of_digits _ (natDigits_all_digits a) _ hs, hdecF]
    simp

theorem count_sep_float2str (cur : Currency) (q : ℚ) (just : ℕ)
    (hs : isDigitCh cur.sepChar = false) (hsm : cur.sepChar ≠ '-')
    (hsd : cur.sepChar ≠ cur.decChar) (hdm : cur.decChar ≠ '-')
    (hsp : cur.sepChar ≠ ' ') (hsym : cur.symbol.count cur.sepChar = 0) :
    (float2str cur q just).count cur.sepChar ≤ 1 := by
  rw [float2str_eq_refRender cur q just hdm, refRender]
  simp only [List.count_append]
  have hpad : ∀ k : ℕ, (List.replicate k ' ').count cur.sepChar = 0 := fun k =>
    List.count_eq_zero.mpr (fun hm => hsp (List.eq_of_mem_replicate hm))
  rw [hpad, hsym]
  by_cases h0 : q < 0 ∧ round2 (100 * |q|) = 0
  · rw [if_pos h0]
    simpa using count_sep_grouped cur false 0 0 hs hsm hsd
  · rw [if_neg h0]
    simpa using count_sep_grouped cur _ _ _ hs hsm hsd

theorem round2_cents_nat (n : ℕ) : round2 (100 * |(n : ℚ) / 100|) = n := by
  have h := round2_cents ((n : ℕ) : ℤ)
  rw [Int.cast_natCast] at h
  simpa using h

theorem float2str_pos_cents (n : ℕ) :
    float2str baseCurrency ((n : ℚ) / 100) 0 =
      grouped baseCurrency false (n / 100) (n % 100) := by
  have hq : ¬((n : ℚ) / 100 < 0) := by
    have : (0 : ℚ) ≤ (n : ℚ) / 100 := by positivity
    linarith
  rw [float2str_eq_refRender _ _ _ (by decide), refRender]
  rw [round2_cents_nat, if_neg (fun h => absurd h.1 hq), decide_eq_false hq]
  simp [baseCurrency]

theorem float2str_neg_cents (n : ℕ) (h1 : 1 ≤ n) :
    float2str baseCurrency (-((n : ℚ) / 100)) 0 =
      grouped baseCurrency true (n / 100) (n % 100) := by
  have hq : -((n : ℚ) / 100) < 0 := by
    have : (0 : ℚ) < (n : ℚ) / 100 := by positivity
    linarith
  have hc : round2 (100 * |-((n : ℚ) / 100)|) = n := by
    rw [abs_neg]
    exact round2_cents_nat n
  rw [float2str_eq_refRender _ _ _ (by decide), refRender, hc,
    if_neg (fun h => by omega), decide_eq_true hq]
  simp [baseCurrency]

/-- Claim C2, counterexample: the round-trip contract does not hold for
every currency configuration.  With symbol `$`, thousands separator `,` and
decimal separator also `,`, the exactly-representable amount 1234.56 formats
to `$1,234,56`, which parses back to 123456.0, not 1234.56. -/
theorem currency_roundtrip_cex :
    str2float ⟨['$'], ',', ','⟩ (float2str ⟨['$'], ',', ','⟩ ((123456 : ℚ) / 100) 0) =
      some ((123456 : ℚ)) ∧
    ¬(str2float ⟨['$'], ',', ','⟩ (float2str ⟨['$'], ',', ','⟩ ((123456 : ℚ) / 100) 0) =
      some ((123456 : ℚ) / 100)) := by
  have hq : ¬((123456 : ℚ) / 100 < 0) := by
    have : (0 : ℚ) ≤ (123456 : ℚ) / 100 := by positivity
    linarith
  have hfmt : float2str ⟨['$'], ',', ','⟩ ((123456 : ℚ) / 100) 0 =
      ['$', '1', ',', '2', '3', '4', ',', '5', '6'] := by
    rw [float2str_eq_refRender _ _ _ (by decide), refRender,
      show round2 (100 * |(123456 : ℚ) / 100|) = 123456 from round2_cents_nat 123456,
      if_neg (fun h => absurd h.1 hq), decide_eq_false hq]
    decide
  rw [hfmt]
  have hv : str2float ⟨['$'], ',', ','⟩ ['$', '1', ',', '2', '3', '4', ',', '5', '6'] =
      some (((123456 : ℕ) : ℚ)) := by decide
  rw [hv]
  constructor
  · norm_num
  · intro hcon
    have h2 := Option.some.inj hcon
    norm_num at h2

/-- Claim C2, amended: for every amount representable exactly at 2-decimal
precision (`n` cents) and every currency configuration whose separator and
decimal characters are distinct and are neither digits nor the minus sign,
and whose symbol does not begin with whitespace, parsing the formatted money
string gives back the same amount, at any justification width. -/
theorem currency_roundtrip (cur : Currency) (hc : goodConfig cur) (n : ℤ) (just : ℕ) :
    str2float cur (float2str cur ((n : ℚ) / 100) just) = some ((n : ℚ) / 100) :=
  str2float_of_float2str cur hc n just

/-- Witness for the round-trip theorem at USD, amount -1234.56, width 8. -/
theorem currency_roundtrip_witness :
    str2float usd (float2str usd ((-123456 : ℚ) / 100) 8) = some ((-123456 : ℚ) / 100) :=
  currency_roundtrip usd (by unfold goodConfig; decide) (-123456) 8

/-- Claim C3, counterexample: `float2str` does not insert the thousands
separator every 3 digits: the amount 1234567.0 (123456700 cents) renders as
`1234,567.00`, with a single separator, not as the claimed `1,234,567.00`. -/
theorem separator_every_three_cex :
    float2str baseCurrency ((123456700 : ℚ) / 100) 0 =
      ['1', '2', '3', '4', ',', '5', '6', '7', '.', '0', '0'] ∧
    ¬(float2str baseCurrency ((123456700 : ℚ) / 100) 0 =
      ['1', ',', '2', '3', '4', ',', '5', '6', '7', '.', '0', '0']) := by
  rw [show ((123456700 : ℚ)) = ((123456700 : ℕ) : ℚ) by norm_num, float2str_pos_cents 123456700]
  constructor <;> decide

/-- Claim C3, amended: `float2str` inserts at most one thousands separator:
the rendered string never contains two separators; a nonnegative amount of
`n` cents renders as its digits with exactly one separator placed three
digits left of the decimal point when the integer part has at least four
digits and with no separator otherwise (`grouped`), and a negative amount
of `n ≥ 1` cents renders the same way after a leading minus sign. -/
theorem separator_placement :
    (∀ q : ℚ, ∀ just : ℕ, (float2str baseCurrency q just).count ',' ≤ 1 ∧
      (float2str usd q just).count ',' ≤ 1) ∧
    (∀ n : ℕ, float2str baseCurrency ((n : ℚ) / 100) 0 =
      grouped baseCurrency false (n / 100) (n % 100)) ∧
    (∀ n : ℕ, 1 ≤ n → float2str baseCurrency (-((n : ℚ) / 100)) 0 =
      grouped baseCurrency true (n / 100) (n % 100)) :=
  ⟨fun q just =>
    ⟨count_sep_float2str baseCurrency q just (by decide) (by decide) (by decide)
        (by decide) (by decide) (by decide),
      count_sep_float2str usd q just (by decide) (by decide) (by decide)
        (by decide) (by decide) (by decide)⟩,
   float2str_pos_cents, float2str_neg_cents⟩

/-- Witness for the separator placement theorem: 12345.67 groups as
`12,345.67` and -1234567.89 renders with one separator before the final
three integer digits. -/
theorem separator_placement_witness :
    float2str baseCurrency ((1234567 : ℚ) / 100) 0 =
      grouped baseCurrency false 12345 67 ∧
    float2str baseCurrency (-((123456789 : ℚ) / 100)) 0 =
      grouped baseCurrency true 1234567 89 := by
  constructor
  · have h := separator_placement.2.1 1234567
    simpa using h
  · have h := separator_placement.2.2 123456789 (by norm_num)
    simpa using h

theorem occursIn_sub_mem {p s : List Char} (h : occursIn p s) : ∀ c ∈ p, c ∈ s := by
  obtain ⟨u, v, rfl⟩ := h
  intro c hc
  exact List.mem_append.mpr (Or.inr (List.mem_append.mpr (Or.inl hc)))

theorem minus_unique : ∀ (w u z y : List Char), '-' ∉ w → '-' ∉ z →
    w ++ '-' :: z = u ++ '-' :: y → w = u ∧ z = y := by
  intro w
  induction w with
  | nil =>
    intro u z y _ hz h
    cases u with
    | nil =>
      rw [List.nil_append, List.nil_append] at h
      injection h with _ h2
      exact ⟨rfl, h2⟩
    | cons a u =>
      rw [List.nil_append, List.cons_append] at h
      injection h with h1 h2
      exact absurd (h2 ▸ List.mem_append.mpr (Or.inr (List.mem_cons_self _ _))) hz
  | cons a w ih =>
    intro u z y hw hz h
    cases u with
    | nil =>
      rw [List.nil_append, List.cons_append] at h
      injection h with h1 h2
      exact absurd (h1 ▸ List.mem_cons_self a w) hw
    | cons b u =>
      rw [List.cons_append, List.cons_append] at h
      injection h with h1 h2
      obtain ⟨e1, e2⟩ := ih u z y (fun hm => hw (List.mem_cons_of_mem a hm)) hz h2
      exact ⟨by rw [h1, e1], e2⟩

theorem not_minus_body (cur : Currency) (a b : ℕ) (hsm : cur.sepChar ≠ '-')
    (hdm : cur.decChar ≠ '-') :
    '-' ∉ (if 4 ≤ (natDigits a).length then
      (natDigits a).take ((natDigits a).length - 3) ++
        cur.sepChar :: ((natDigits a).drop ((natDigits a).length - 3) ++
          cur.decChar :: twoDigits b)
     else natDigits a ++ cur.decChar :: twoDigits b) := by
  intro hm
  by_cases h4 : 4 ≤ (natDigits a).length
  · rw [if_pos h4] at hm
    rcases List.mem_append.mp hm with h1 | h1
    · exact not_minus_mem_digits (all_take _ (natDigits_all_digits a)) h1
    · rcases List.mem_cons.mp h1 with h2 | h2
      · exact hsm h2.symm
      · rcases List.mem_append.mp h2 with h3 | h3
        · exact not_minus_mem_digits (all_drop _ (natDigits_all_digits a)) h3
        · rcases List.mem_cons.mp h3 with h5 | h5
          · exact hdm h5.symm
          · exact not_minus_mem_digits (twoDigits_all_digits b) h5
  · rw [if_neg h4] at hm
    rcases List.mem_append.mp hm with h1 | h1
    · exact not_minus_mem_digits (natDigits_all_digits a) h1
    · rcases List.mem_cons.mp h1 with h2 | h2
      · exact hdm h2.symm
      · exact not_minus_mem_digits (twoDigits_all_digits b) h2

theorem not_minus_grouped_false (cur : Currency) (a b : ℕ) (hsm : cur.sepChar ≠ '-')
    (hdm : cur.decChar ≠ '-') : '-' ∉ grouped cur false a b := by
  rw [grouped, show sgnL false = [] from rfl, List.nil_append]
  exact not_minus_body cur a b hsm hdm

theorem branch_ne_zero_pattern (cur : Currency) (a b : ℕ) (hb : b < 100)
    (hab : ¬(a = 0 ∧ b = 0))
    (hsdot : cur.sepChar ≠ '.') (hdecEq : cur.decChar = '.') (v : List Char) :
    (if 4 ≤ (natDigits a).length then
      (natDigits a).take ((natDigits a).length - 3) ++
        cur.sepChar :: ((natDigits a).drop ((natDigits a).length - 3) ++
          cur.decChar :: twoDigits b)
     else natDigits a ++ cur.decChar :: twoDigits b) ≠
      '0' :: '.' :: '0' :: '0' :: v := by
  intro h
  cases hD : natDigits a with
  | nil => exact absurd hD (natDigits_ne_nil a)
  | cons d0 D =>
    by_cases h4 : 4 ≤ (natDigits a).length
    · rw [if_pos h4] at h
      have hk : (natDigits a).take ((natDigits a).length - 3) =
          d0 :: D.take ((natDigits a).length - 4) := by
        rw [show (natDigits a).length - 3 = ((natDigits a).length - 4) + 1 by
          rw [hD] at h4 ⊢; omega, hD, List.take_succ_cons]
      rw [hk, List.cons_append] at h
      injection h with h1 h2
      cases htk : D.take ((natDigits a).length - 4) with
      | nil =>
        rw [htk, List.nil_append] at h2
        injection h2 with h3 _
        exact hsdot h3
      | cons e1 es =>
        rw [htk, List.cons_append] at h2
        injection h2 with h3 _
        have hmem : e1 ∈ natDigits a := by
          rw [hD]
          exact List.mem_cons_of_mem _ (List.take_subset _ _ (htk ▸ List.mem_cons_self e1 es))
        have := all_digits_forall (natDigits_all_digits a) e1 hmem
        rw [h3] at this
        exact absurd this (by decide)
    · rw [if_neg h4, hdecEq, hD, List.cons_append] at h
      injection h with h1 h2
      cases D with
      | nil =>
        rw [List.nil_append] at h2
        injection h2 with _ h3
        rw [twoDigits] at h3
        injection h3 with h5 h6
        injection h6 with h7 h8
        have hb1 : b / 10 % 10 = 0 := by
          have := congrArg digitVal h5
          rwa [digitVal_digitChar _ (Nat.mod_lt _ (by omega)),
            show digitVal '0' = 0 by decide] at this
        have hb2 : b % 10 = 0 := by
          have := congrArg digitVal h7
          rwa [digitVal_digitChar _ (Nat.mod_lt _ (by omega)),
            show digitVal '0' = 0 by decide] at this
        have ha : a = 0 := natDigits_eq_single_zero a (by rw [hD, h1])
        exact hab ⟨ha, by omega⟩
      | cons d1 D2 =>
        rw [List.cons_append] at h2
        injection h2 with h3 _
        have hmem : d1 ∈ natDigits a := by
          rw [hD]
          exact List.mem_cons_of_mem _ (List.mem_cons_self _ _)
        have := all_digits_forall (natDigits_all_digits a) d1 hmem
        rw [h3] at this
        exact absurd this (by decide)

theorem no_neg_zero_helper (cur : Currency) (hsep : cur.sepChar = ',')
    (hdec : cur.decChar = '.') (hsym : '-' ∉ cur.symbol) (q : ℚ) (just : ℕ) :
    ¬ occursIn ['-', '0', '.', '0', '0'] (float2str cur q just) := by
  have hsm : cur.sepChar ≠ '-' := by rw [hsep]; decide
  have hdm : cur.decChar ≠ '-' := by rw [hdec]; decide
  intro hocc
  rw [float2str_eq_refRender cur q just hdm, refRender] at hocc
  by_cases hB : q < 0 ∧ round2 (100 * |q|) ≠ 0
  · have hcond : ¬(q < 0 ∧ round2 (100 * |q|) = 0) := fun hx => hB.2 hx.2
    rw [if_neg hcond, decide_eq_true hB.1] at hocc
    obtain ⟨u, v, heq⟩ := hocc
    rw [grouped, show sgnL true = ['-'] from rfl, List.singleton_append,
      ← List.append_assoc,
      show (['-', '0', '.', '0', '0'] : List Char) ++ v =
        '-' :: ('0' :: '.' :: '0' :: '0' :: v) from rfl] at heq
    have hnm1 : '-' ∉ List.replicate
        (just - (cur.symbol ++ ('-' :: (if 4 ≤ (natDigits (round2 (100 * |q|) / 100)).length
          then (natDigits (round2 (100 * |q|) / 100)).take
              ((natDigits (round2 (100 * |q|) / 100)).length - 3) ++
            cur.sepChar :: ((natDigits (round2 (100 * |q|) / 100)).drop
              ((natDigits (round2 (100 * |q|) / 100)).length - 3) ++
              cur.decChar :: twoDigits (round2 (100 * |q|) % 100))
          else natDigits (round2 (100 * |q|) / 100) ++
            cur.decChar :: twoDigits (round2 (100 * |q|) % 100)))).length) ' ' ++
        cur.symbol := by
      intro hm
      rcases List.mem_append.mp hm with h1 | h1
      · exact absurd (List.eq_of_mem_replicate h1) (by decide)
      · exact hsym h1
    have hnm2 := not_minus_body cur (round2 (100 * |q|) / 100) (round2 (100 * |q|) % 100)
      hsm hdm
    obtain ⟨_, he2⟩ := minus_unique _ u _ _ hnm1 hnm2 heq
    exact branch_ne_zero_pattern cur _ _ (Nat.mod_lt _ (by omega))
      (fun hz => hB.2 (by omega)) (by rw [hsep]; decide) hdec v he2
  · have hnm : '-' ∉ (if q < 0 ∧ round2 (100 * |q|) = 0 then grouped cur false 0 0
        else grouped cur (decide (q < 0)) (round2 (100 * |q|) / 100)
          (round2 (100 * |q|) % 100)) := by
      by_cases h0 : q < 0 ∧ round2 (100 * |q|) = 0
      · rw [if_pos h0]
        exact not_minus_grouped_false cur 0 0 hsm hdm
      · have hq : ¬(q < 0) := fun hlt => by
          by_cases hc0 : round2 (100 * |q|) = 0
          · exact h0 ⟨hlt, hc0⟩
          · exact hB ⟨hlt, hc0⟩
        rw [if_neg h0, decide_eq_false hq]
        exact not_minus_grouped_false cur _ _ hsm hdm
    have hmem := occursIn_sub_mem hocc '-' (List.mem_cons_self _ _)
    rcases List.mem_append.mp hmem with h1 | h1
    · exact absurd (List.eq_of_mem_replicate h1) (by decide)
    · rcases List.mem_append.mp h1 with h2 | h2
      · exact hsym h2
      · exact hnm h2

/-- Claim C4: for every input amount — negative values rounding to zero at
2 decimals included — the string returned by `float2str` never contains the
substring `-0.00`, for both currencies of the module: a negative zero
rendering is collapsed to `0.00`. -/
theorem no_negative_zero (q : ℚ) (just : ℕ) :
    ¬ occursIn ['-', '0', '.', '0', '0'] (float2str usd q just) ∧
    ¬ occursIn ['-', '0', '.', '0', '0'] (float2str baseCurrency q just) :=
  ⟨no_neg_zero_helper usd rfl rfl (by decide) q just,
   no_neg_zero_helper baseCurrency rfl rfl (by decide) q just⟩

/-- Claim C10: `str2float` strips whitespace and then removes the first
`len(Symbol)` characters of the input unconditionally, whether or not they
equal the currency symbol: on any whitespace-free input, USD parsing
coincides with symbol-less parsing (`BaseCurrency` differs from `USD` only
by its empty symbol) of the input minus its first character; in particular
USD's `str2float("1.00")` does not fail, and silently returns 0.0 — the
value of `".00"` — rather than 1.0. -/
theorem str2float_drops_head :
    (∀ s : List Char, s.all (fun c => !(pySpace c)) = true →
      str2float usd s = str2float baseCurrency (s.drop 1)) ∧
    str2float usd ['1', '.', '0', '0'] = some 0 ∧
    ¬(str2float usd ['1', '.', '0', '0'] = some 1) := by
  refine ⟨fun s hs => ?_, ?_, ?_⟩
  · simp only [str2float]
    rw [pyStrip_all_nonspace s hs, pyStrip_all_nonspace _ (all_drop 1 hs)]
    rfl
  · with_unfolding_all decide
  · with_unfolding_all decide

/-- Witness for the unconditional-symbol-strip theorem at the whitespace
free input `2345`. -/
theorem str2float_drops_head_witness :
    str2float usd ['2', '3', '4', '5'] = str2float baseCurrency ['3', '4', '5'] :=
  str2float_drops_head.1 ['2', '3', '4', '5'] (by decide)

/-- Claim C5: date normalization resolves a two-digit year `y < 100` to
`currentCentury*100 + y` when `y ≤ currentYear mod 100 + 10` and to
`(currentCentury - 1)*100 + y` otherwise, where `currentCentury` is today's
year floor-divided by 100; a year of 100 or more is used as-is; with today =
2008-06-15 the spec's four example strings resolve as stated. -/
theorem date_abbreviation (today : PyDate) (y : ℤ) (_h0 : 0 ≤ y) (h1 : y < 100) :
    massageYear today y =
      (if y ≤ today.year.emod 100 + 10 then (today.year.ediv 100) * 100 + y
       else (today.year.ediv 100 - 1) * 100 + y) ∧
    (∀ z : ℤ, 100 ≤ z → massageYear today z = z) ∧
    massageDate ⟨2008, 6, 15⟩ ("08-01-06") = some ⟨2008, 1, 6⟩ ∧
    massageDate ⟨2008, 6, 15⟩ ("18-01-06") = some ⟨2018, 1, 6⟩ ∧
    massageDate ⟨2008, 6, 15⟩ ("19-01-06") = some ⟨1919, 1, 6⟩ ∧
    massageDate ⟨2008, 6, 15⟩ ("99-01-06") = some ⟨1999, 1, 6⟩ := by
  refine ⟨?_, fun z hz => ?_, by decide, by decide, by decide, by decide⟩
  · rw [massageYear, if_pos h1]
    by_cases hc : y ≤ today.year.emod 100 + 10
    · rw [if_pos hc, if_pos hc]
      ring
    · rw [if_neg hc, if_neg hc]
      ring
  · rw [massageYear, if_neg (by omega)]

/-- Witness for the date normalization theorem at today = 2008-06-15 and
abbreviated year 18. -/
theorem date_abbreviation_witness :
    massageYear ⟨2008, 6, 15⟩ 18 =
      (if (18 : ℤ) ≤ (PyDate.mk 2008 6 15).year.emod 100 + 10
       then ((PyDate.mk 2008 6 15).year.ediv 100) * 100 + 18
       else ((PyDate.mk 2008 6 15).year.ediv 100 - 1) * 100 + 18) :=
  (date_abbreviation ⟨2008, 6, 15⟩ 18 (by decide) (by decide)).1

theorem pairLt_asymm {α β : Type} [DecidableEq α] {la : α → α → Bool} {lb : β → β → Bool}
    (hA : ∀ x y, la x y = true → la y x = true → False)
    (hB : ∀ x y, lb x y = true → lb y x = true → False) :
    ∀ p q, pairLt la lb p q = true → pairLt la lb q p = true → False := by
  intro p q h1 h2
  simp only [pairLt, Bool.or_eq_true, Bool.and_eq_true, decide_eq_true_eq] at h1 h2
  rcases h1 with h1 | ⟨he1, h1⟩ <;> rcases h2 with h2 | ⟨he2, h2⟩
  · exact hA _ _ h1 h2
  · rw [he2] at h1
    exact hA _ _ h1 h1
  · rw [he1] at h2
    exact hA _ _ h2 h2
  · exact hB _ _ h1 h2

theorem pairLt_trans {α β : Type} [DecidableEq α] {la : α → α → Bool} {lb : β → β → Bool}
    (hA : ∀ x y z, la x y = true → la y z = true → la x z = true)
    (hB : ∀ x y z, lb x y = true → lb y z = true → lb x z = true) :
    ∀ p q r, pairLt la lb p q = true → pairLt la lb q r = true →
      pairLt la lb p r = true := by
  intro p q r h1 h2
  simp only [pairLt, Bool.or_eq_true, Bool.and_eq_true, decide_eq_true_eq] at h1 h2 ⊢
  rcases h1 with h1 | ⟨he1, h1⟩ <;> rcases h2 with h2 | ⟨he2, h2⟩
  · exact Or.inl (hA _ _ _ h1 h2)
  · rw [he2] at h1
    exact Or.inl h1
  · rw [he1]
    exact Or.inl h2
  · exact Or.inr ⟨he1.trans he2, hB _ _ _ h1 h2⟩

theorem pairLt_connex {α β : Type} [DecidableEq α] {la : α → α → Bool} {lb : β → β → Bool}
    (hA : ∀ x y, x ≠ y → la x y = true ∨ la y x = true)
    (hB : ∀ x y, x ≠ y → lb x y = true ∨ lb y x = true) :
    ∀ p q, p ≠ q → pairLt la lb p q = true ∨ pairLt la lb q p = true := by
  intro p q hne
  by_cases he : p.1 = q.1
  · have hne2 : p.2 ≠ q.2 := fun h2 => hne (Prod.ext he h2)
    rcases hB _ _ hne2 with h | h
    · exact Or.inl (by simp [pairLt, he, h])
    · exact Or.inr (by simp [pairLt, he.symm, h])
  · rcases hA _ _ he with h | h
    · exact Or.inl (by simp [pairLt, h])
    · exact Or.inr (by simp [pairLt, h])

theorem intLt_asymm : ∀ x y : ℤ, intLt x y = true → intLt y x = true → False := by
  intro x y h1 h2
  simp only [intLt, decide_eq_true_eq] at h1 h2
  omega

theorem intLt_trans : ∀ x y z : ℤ, intLt x y = true → intLt y z = true → intLt x z = true := by
  intro x y z h1 h2
  simp only [intLt, decide_eq_true_eq] at h1 h2 ⊢
  omega

theorem intLt_connex : ∀ x y : ℤ, x ≠ y → intLt x y = true ∨ intLt y x = true := by
  intro x y h
  simp only [intLt, decide_eq_true_eq]
  omega

theorem ratLt_asymm : ∀ x y : ℚ, ratLt x y = true → ratLt y x = true → False := by
  intro x y h1 h2
  simp only [ratLt, decide_eq_true_eq] at h1 h2
  exact absurd h2 (not_lt_of_gt h1)

theorem ratLt_trans : ∀ x y z : ℚ, ratLt x y = true → ratLt y z = true → ratLt x z = true := by
  intro x y z h1 h2
  simp only [ratLt, decide_eq_true_eq] at h1 h2 ⊢
  linarith

theorem ratLt_connex : ∀ x y : ℚ, x ≠ y → ratLt x y = true ∨ ratLt y x = true := by
  intro x y h
  simp only [ratLt, decide_eq_true_eq]
  rcases lt_trichotomy x y with h1 | h1 | h1
  · exact Or.inl h1
  · exact absurd h1 h
  · exact Or.inr h1

theorem charListLt_asymm : ∀ as bs : List Char,
    charListLt as bs = true → charListLt bs as = true → False := by
  intro as
  induction as with
  | nil =>
    intro bs h1 h2
    cases bs with
    | nil => exact absurd h1 (by simp [charListLt])
    | cons b bs => exact absurd h2 (by simp [charListLt])
  | cons a as ih =>
    intro bs h1 h2
    cases bs with
    | nil => exact absurd h1 (by simp [charListLt])
    | cons b bs =>
      simp only [charListLt] at h1 h2
      by_cases hab : a < b
      · rw [if_neg (lt_asymm hab), if_pos hab] at h2
        exact absurd h2 Bool.false_ne_true
      · rw [if_neg hab] at h1
        by_cases hba : b < a
        · rw [if_pos hba] at h1
          exact absurd h1 Bool.false_ne_true
        · rw [if_neg hba] at h1
          rw [if_neg hba, if_neg hab] at h2
          exact ih bs h1 h2

theorem charListLt_trans : ∀ as bs cs : List Char,
    charListLt as bs = true → charListLt bs cs = true → charListLt as cs = true := by
  intro as
  induction as with
  | nil =>
    intro bs cs h1 h2
    cases bs with
    | nil => exact absurd h1 (by simp [charListLt])
    | cons b bs =>
      cases cs with
      | nil => exact absurd h2 (by simp [charListLt])
      | cons c cs => simp [charListLt]
  | cons a as ih =>
    intro bs cs h1 h2
    cases bs with
    | nil => exact absurd h1 (by simp [charListLt])
    | cons b bs =>
      cases cs with
      | nil => exact absurd h2 (by simp [charListLt])
      | cons c cs =>
        simp only [charListLt] at h1 h2 ⊢
        rcases lt_trichotomy a b with hab | hab | hab
        · rcases lt_trichotomy b c with hbc | hbc | hbc
          · rw [if_pos (lt_trans hab hbc)]
          · rw [← hbc, if_pos hab]
          · rw [if_neg (lt_asymm hbc), if_pos hbc] at h2
            exact absurd h2 Bool.false_ne_true
        · subst hab
          rw [if_neg (lt_irrefl a), if_neg (lt_irrefl a)] at h1
          rcases lt_trichotomy a c with hac | hac | hac
          · rw [if_pos hac]
          · subst hac
            rw [if_neg (lt_irrefl a), if_neg (lt_irrefl a)] at h2 ⊢
            exact ih bs cs h1 h2
          · rw [if_neg (lt_asymm hac), if_pos hac] at h2
            exact absurd h2 Bool.false_ne_true
        · rw [if_neg (lt_asymm hab), if_pos hab] at h1
          exact absurd h1 Bool.false_ne_true

theorem charListLt_connex : ∀ as bs : List Char, as ≠ bs →
    charListLt as bs = true ∨ charListLt bs as = true := by
  intro as
  induction as with
  | nil =>
    intro bs h
    cases bs with
    | nil => exact absurd rfl h
    | cons b bs => exact Or.inl (by simp [charListLt])
  | cons a as ih =>
    intro bs h
    cases bs with
    | nil => exact Or.inr (by simp [charListLt])
    | cons b bs =>
      rcases lt_trichotomy a b with hab | hab | hab
      · exact Or.inl (by simp [charListLt, hab])
      · have htl : as ≠ bs := fun he => h (by rw [hab, he])
        rcases ih bs htl with h2 | h2
        · exact Or.inl (by simp [charListLt, hab, lt_irrefl, h2])
        · exact Or.inr (by simp [charListLt, hab.symm, lt_irrefl, h2])
      · exact Or.inr (by simp [charListLt, hab, lt_asymm hab])

theorem strLt_asymm : ∀ x y : String, strLt x y = true → strLt y x = true → False :=
  fun x y h1 h2 => charListLt_asymm x.toList y.toList h1 h2

theorem strLt_trans : ∀ x y z : String, strLt x y = true → strLt y z = true →
    strLt x z = true :=
  fun x y z h1 h2 => charListLt_trans x.toList y.toList z.toList h1 h2

theorem strLt_connex : ∀ x y : String, x ≠ y → strLt x y = true ∨ strLt y x = true :=
  fun x y h => charListLt_connex x.toList y.toList (fun he => h (String.ext he))

theorem dateTripleLt_asymm : ∀ p q, dateTripleLt p q = true → dateTripleLt q p = true → False :=
  pairLt_asymm intLt_asymm (pairLt_asymm intLt_asymm intLt_asymm)

theorem dateTripleLt_trans : ∀ p q r, dateTripleLt p q = true → dateTripleLt q r = true →
    dateTripleLt p r = true :=
  pairLt_trans intLt_trans (pairLt_trans intLt_trans intLt_trans)

theorem dateTripleLt_connex : ∀ p q, p ≠ q →
    dateTripleLt p q = true ∨ dateTripleLt q p = true :=
  pairLt_connex intLt_connex (pairLt_connex intLt_connex intLt_connex)

theorem transKey_inj {a b : Trans} (h : transKey a = transKey b) : a = b := by
  cases a with
  | mk ad aa ads ap =>
    cases b with
    | mk bd ba bds bp =>
      cases ad
      cases bd
      simp only [transKey, Prod.mk.injEq] at h
      obtain ⟨⟨h1, h2, h3⟩, h4, h5, h6⟩ := h
      simp_all

theorem transLt_asymm : ∀ x y : Trans, transLt x y = true → transLt y x = true → False :=
  fun x y h1 h2 =>
    pairLt_asymm dateTripleLt_asymm
      (pairLt_asymm ratLt_asymm (pairLt_asymm strLt_asymm strLt_asymm))
      (transKey x) (transKey y) h1 h2

theorem transLt_trans : ∀ x y z : Trans, transLt x y = true → transLt y z = true →
    transLt x z = true :=
  fun x y z h1 h2 =>
    pairLt_trans dateTripleLt_trans
      (pairLt_trans ratLt_trans (pairLt_trans strLt_trans strLt_trans))
      (transKey x) (transKey y) (transKey z) h1 h2

theorem transLt_connex : ∀ x y : Trans, x ≠ y → transLt x y = true ∨ transLt y x = true :=
  fun x y h =>
    pairLt_connex dateTripleLt_connex
      (pairLt_connex ratLt_connex (pairLt_connex strLt_connex strLt_connex))
      (transKey x) (transKey y) (fun hk => h (transKey_inj hk))

instance : IsTotal Trans rTrans :=
  ⟨fun a b => by
    by_cases h : a = b
    · exact Or.inl (by simp [rTrans, h])
    · rcases transLt_connex a b h with h2 | h2
      · exact Or.inl (by simp [rTrans, h2])
      · exact Or.inr (by simp [rTrans, h2])⟩

instance : IsTrans Trans rTrans :=
  ⟨fun a b c h1 h2 => by
    simp only [rTrans, Bool.or_eq_true, decide_eq_true_eq] at h1 h2 ⊢
    rcases h1 with h1 | h1 <;> rcases h2 with h2 | h2
    · exact Or.inl (transLt_trans _ _ _ h1 h2)
    · rw [← h2]
      exact Or.inl h1
    · rw [h1]
      exact Or.inl h2
    · exact Or.inr (h1.trans h2)⟩

instance : IsAntisymm Trans rTrans :=
  ⟨fun a b h1 h2 => by
    simp only [rTrans, Bool.or_eq_true, decide_eq_true_eq] at h1 h2
    rcases h1 with h1 | h1
    · rcases h2 with h2 | h2
      · exact absurd h2 (fun hc => transLt_asymm _ _ h1 hc)
      · exact h2.symm
    · exact h1⟩

instance : IsTotal String rStr :=
  ⟨fun a b => by
    by_cases h : a = b
    · exact Or.inl (by simp [rStr, h])
    · rcases strLt_connex a b h with h2 | h2
      · exact Or.inl (by simp [rStr, h2])
      · exact Or.inr (by simp [rStr, h2])⟩

instance : IsTrans String rStr :=
  ⟨fun a b c h1 h2 => by
    simp only [rStr, Bool.or_eq_true, decide_eq_true_eq] at h1 h2 ⊢
    rcases h1 with h1 | h1 <;> rcases h2 with h2 | h2
    · exact Or.inl (strLt_trans _ _ _ h1 h2)
    · rw [← h2]
      exact Or.inl h1
    · rw [h1]
      exact Or.inl h2
    · exact Or.inr (h1.trans h2)⟩

instance : IsAntisymm String rStr :=
  ⟨fun a b h1 h2 => by
    simp only [rStr, Bool.or_eq_true, decide_eq_true_eq] at h1 h2
    rcases h1 with h1 | h1
    · rcases h2 with h2 | h2
      · exact absurd h2 (fun hc => strLt_asymm _ _ h1 hc)
      · exact h2.symm
    · exact h1⟩

theorem dateLt_iff (a b : PyDate) : dateLt a b = true ↔
    (a.year < b.year ∨ (a.year = b.year ∧
      (a.month < b.month ∨ (a.month = b.month ∧ a.day < b.day)))) := by
  simp [dateLt, dateTripleLt, pairLt, intLt]

theorem dateEq_iff (a b : PyDate) : a = b ↔
    (a.year = b.year ∧ a.month = b.month ∧ a.day = b.day) := by
  cases a
  cases b
  simp [PyDate.mk.injEq]

theorem dateLe_iff (a b : PyDate) : dateLe a b = true ↔
    ((a.year < b.year ∨ (a.year = b.year ∧
      (a.month < b.month ∨ (a.month = b.month ∧ a.day < b.day)))) ∨
     (a.year = b.year ∧ a.month = b.month ∧ a.day = b.day)) := by
  simp only [dateLe, Bool.or_eq_true, decide_eq_true_eq, dateLt_iff, dateEq_iff]

theorem rTrans_dateLe (t u : Trans) (h : rTrans t u) : dateLe t.date u.date = true := by
  simp only [rTrans, Bool.or_eq_true, decide_eq_true_eq] at h
  rcases h with h | h
  · simp only [transLt, pairLt, Bool.or_eq_true, Bool.and_eq_true, decide_eq_true_eq] at h
    rcases h with h | ⟨he, _⟩
    · simp only [dateLe, Bool.or_eq_true]
      exact Or.inl h
    · have he2 : t.date.year = u.date.year ∧ t.date.month = u.date.month ∧
          t.date.day = u.date.day := by
        simpa [transKey, Prod.mk.injEq] using he
      rw [dateLe_iff]
      exact Or.inr he2
  · rw [h, dateLe_iff]
    exact Or.inr ⟨rfl, rfl, rfl⟩

theorem dateLt_of_lt_of_le {x a b : PyDate} (h1 : dateLt x a = true)
    (h2 : dateLe a b = true) : dateLt x b = true := by
  rw [dateLt_iff] at h1 ⊢
  rw [dateLe_iff] at h2
  omega

theorem dateLe_of_not_lt {a b : PyDate} (h : ¬(dateLt b a = true)) : dateLe a b = true := by
  rw [dateLt_iff] at h
  rw [dateLe_iff]
  omega

theorem earnLoop_eq_bucketFold (st en : PyDate) :
    ∀ l : List Trans, l.Pairwise (fun a b => dateLe a.date b.date = true) →
    ∀ b, earnLoop st en l b = bucketFold b (l.filter (inRangeB st en)) := by
  intro l
  induction l with
  | nil => intro _ b; rfl
  | cons t ts ih =>
    intro hsort b
    rw [List.pairwise_cons] at hsort
    obtain ⟨hall, htail⟩ := hsort
    simp only [earnLoop]
    by_cases h1 : dateLe st t.date = true
    · rw [if_pos h1]
      by_cases h2 : dateLt en t.date = true
      · rw [if_pos h2]
        have hfilter : (t :: ts).filter (inRangeB st en) = [] := by
          rw [List.filter_eq_nil_iff]
          intro u hu
          rcases List.mem_cons.mp hu with rfl | hu2
          · simp only [inRangeB, Bool.and_eq_true, not_and]
            intro _
            intro hle
            rw [dateLt_iff] at h2
            rw [dateLe_iff] at hle
            omega
          · simp only [inRangeB, Bool.and_eq_true, not_and]
            intro _
            intro hle
            have h3 := dateLt_of_lt_of_le h2 (hall u hu2)
            rw [dateLt_iff] at h3
            rw [dateLe_iff] at hle
            omega
        rw [hfilter]
        rfl
      · rw [if_neg h2]
        have hin : inRangeB st en t = true := by
          simp only [inRangeB, Bool.and_eq_true]
          exact ⟨h1, dateLe_of_not_lt h2⟩
        rw [List.filter_cons_of_pos hin, ih htail]
        rfl
    · rw [if_neg h1]
      have hout : inRangeB st en t = false := by
        simp only [inRangeB, Bool.and_eq_false_iff]
        left
        cases hd : dateLe st t.date
        · rfl
        · exact absurd hd h1
      rw [List.filter_cons_of_neg (by rw [hout]; exact Bool.false_ne_true), ih htail]

theorem lookup_addToBucket_same (b : List (String × ℚ)) (k : String) (v : ℚ) :
    List.lookup k (addToBucket b k v) = some (lookupVal b k + v) := by
  induction b with
  | nil =>
    simp only [addToBucket, lookupVal]
    rw [List.lookup_cons, show (k == k) = true by simp]
    norm_num
  | cons p rest ih =>
    by_cases hp : p.1 = k
    · simp only [addToBucket, if_pos hp]
      cases p with
      | mk k1 v1 =>
        simp only at hp
        rw [List.lookup_cons, show (k == k1) = true by simp [hp.symm], lookupVal,
          List.lookup_cons, show (k == k1) = true by simp [hp.symm]]
        rfl
    · simp only [addToBucket, if_neg hp]
      cases p with
      | mk k1 v1 =>
        simp only at hp
        have hbe : (k == k1) = false := by simp; exact fun h => hp h.symm
        simp only [lookupVal, List.lookup_cons, hbe]
        rw [ih]
        rfl

theorem lookup_addToBucket_ne (b : List (String × ℚ)) (k k2 : String) (v : ℚ)
    (h : ¬(k = k2)) : List.lookup k (addToBucket b k2 v) = List.lookup k b := by
  induction b with
  | nil =>
    simp only [addToBucket]
    rw [List.lookup_cons, show (k == k2) = false by simp [h]]
  | cons p rest ih =>
    by_cases hp : p.1 = k2
    · simp only [addToBucket, if_pos hp]
      cases p with
      | mk k1 v1 =>
        simp only at hp
        rw [List.lookup_cons, List.lookup_cons,
          show (k == k1) = false by simp; exact fun hh => h (hh.trans hp)]
    · simp only [addToBucket, if_neg hp]
      cases p with
      | mk k1 v1 =>
        rw [List.lookup_cons, List.lookup_cons, ih]

theorem sumKey_nil (k : String) : sumKey [] k = 0 := rfl

theorem sumKey_cons (t : Trans) (ts : List Trans) (k : String) :
    sumKey (t :: ts) k =
      (if keyOf t.date = k then t.amount + sumKey ts k else sumKey ts k) := by
  simp only [sumKey, List.filter_cons]
  by_cases h : keyOf t.date = k
  · rw [if_pos (by simp [h]), if_pos h]
    simp
  · rw [if_neg (by simp [h]), if_neg h]

theorem lookupVal_bucketFold (l : List Trans) : ∀ (b : List (String × ℚ)) (k : String),
    lookupVal (bucketFold b l) k = lookupVal b k + sumKey l k := by
  induction l with
  | nil =>
    intro b k
    rw [sumKey_nil]
    simp [bucketFold]
  | cons t ts ih =>
    intro b k
    simp only [bucketFold, List.foldl_cons]
    rw [show List.foldl (fun acc t => addToBucket acc (keyOf t.date) t.amount)
        (addToBucket b (keyOf t.date) t.amount) ts =
      bucketFold (addToBucket b (keyOf t.date) t.amount) ts from rfl, ih, sumKey_cons]
    by_cases hk : keyOf t.date = k
    · rw [if_pos hk, show lookupVal (addToBucket b (keyOf t.date) t.amount) k =
          lookupVal b k + t.amount by
        rw [lookupVal, hk, lookup_addToBucket_same]
        rfl]
      ring
    · rw [if_neg hk, show lookupVal (addToBucket b (keyOf t.date) t.amount) k =
          lookupVal b k by
        rw [lookupVal, lookup_addToBucket_ne _ _ _ _ (fun he => hk he.symm)]
        rfl]

theorem keys_addToBucket (b : List (String × ℚ)) (k : String) (v : ℚ) :
    (addToBucket b k v).map Prod.fst =
      (if k ∈ b.map Prod.fst then b.map Prod.fst else b.map Prod.fst ++ [k]) := by
  induction b with
  | nil => simp [addToBucket]
  | cons p rest ih =>
    by_cases hp : p.1 = k
    · simp only [addToBucket, if_pos hp, List.map_cons]
      rw [if_pos (by rw [← hp]; exact List.mem_cons_self _ _)]
    · simp only [addToBucket, if_neg hp, List.map_cons, ih]
      by_cases hm : k ∈ rest.map Prod.fst
      · rw [if_pos hm, if_pos (List.mem_cons_of_mem _ hm)]
      · rw [if_neg hm, if_neg (by
          intro hc
          rcases List.mem_cons.mp hc with hc | hc
          · exact hp hc.symm
          · exact hm hc), List.cons_append]

theorem keys_bucketFold (l : List Trans) : ∀ b : List (String × ℚ),
    (bucketFold b l).map Prod.fst =
      (l.map (fun t => keyOf t.date)).foldl
        (fun acc k => if k ∈ acc then acc else acc ++ [k]) (b.map Prod.fst) := by
  induction l with
  | nil => intro b; rfl
  | cons t ts ih =>
    intro b
    simp only [bucketFold, List.foldl_cons, List.map_cons]
    rw [show List.foldl (fun acc t => addToBucket acc (keyOf t.date) t.amount)
        (addToBucket b (keyOf t.date) t.amount) ts =
      bucketFold (addToBucket b (keyOf t.date) t.amount) ts from rfl, ih, keys_addToBucket]

theorem foldl_ins_mem : ∀ (ks acc : List String) (x : String),
    (x ∈ ks.foldl (fun acc k => if k ∈ acc then acc else acc ++ [k]) acc) ↔
      (x ∈ acc ∨ x ∈ ks) := by
  intro ks
  induction ks with
  | nil => simp
  | cons k ks ih =>
    intro acc x
    simp only [List.foldl_cons]
    rw [ih]
    by_cases hk : k ∈ acc
    · rw [if_pos hk]
      constructor
      · rintro (h | h)
        · exact Or.inl h
        · exact Or.inr (List.mem_cons_of_mem _ h)
      · rintro (h | h)
        · exact Or.inl h
        · rcases List.mem_cons.mp h with rfl | h2
          · exact Or.inl hk
          · exact Or.inr h2
    · rw [if_neg hk]
      simp only [List.mem_append, List.mem_cons, List.mem_singleton]
      tauto

theorem foldl_ins_nodup : ∀ (ks acc : List String), acc.Nodup →
    (ks.foldl (fun acc k => if k ∈ acc then acc else acc ++ [k]) acc).Nodup := by
  intro ks
  induction ks with
  | nil => intro acc h; exact h
  | cons k ks ih =>
    intro acc h
    simp only [List.foldl_cons]
    by_cases hk : k ∈ acc
    · rw [if_pos hk]
      exact ih acc h
    · rw [if_neg hk]
      refine ih _ ?_
      simp [List.nodup_append, h, hk]

theorem specKeys_mem (ks : List String) (x : String) : x ∈ specKeys ks ↔ x ∈ ks := by
  rw [specKeys, foldl_ins_mem]
  simp

theorem specKeys_nodup (ks : List String) : (specKeys ks).Nodup :=
  foldl_ins_nodup ks [] List.nodup_nil

theorem sortKeys_congr (ks1 ks2 : List String) (h1 : ks1.Nodup) (h2 : ks2.Nodup)
    (hm : ∀ x, x ∈ ks1 ↔ x ∈ ks2) :
    List.insertionSort rStr ks1 = List.insertionSort rStr ks2 :=
  List.eq_of_perm_of_sorted
    ((List.perm_insertionSort _ _).trans
      (((List.perm_ext_iff_of_nodup h1 h2).mpr hm).trans
        (List.perm_insertionSort _ _).symm))
    (List.sorted_insertionSort _ _) (List.sorted_insertionSort _ _)

theorem insertionSort_eq_of_perm {l1 l2 : List Trans} (h : l1.Perm l2) :
    List.insertionSort rTrans l1 = List.insertionSort rTrans l2 :=
  List.eq_of_perm_of_sorted
    ((List.perm_insertionSort _ _).trans (h.trans (List.perm_insertionSort _ _).symm))
    (List.sorted_insertionSort _ _) (List.sorted_insertionSort _ _)

theorem getEarnings_eq_earningsSpec (today : PyDate) (months : ℕ) (ts : List Trans) :
    getEarnings today months ts = earningsSpec today months ts := by
  simp only [getEarnings, earningsSpec]
  have hsorted : (List.insertionSort rTrans ts).Pairwise
      (fun a b => dateLe a.date b.date = true) :=
    (List.sorted_insertionSort rTrans ts).imp (fun h => rTrans_dateLe _ _ h)
  rw [earnLoop_eq_bucketFold _ _ _ hsorted]
  have hpermf : ((List.insertionSort rTrans ts).filter
      (inRangeB (getDateRange today months).1 (getDateRange today months).2)).Perm
      (ts.filter (inRangeB (getDateRange today months).1 (getDateRange today months).2)) :=
    (List.perm_insertionSort rTrans ts).filter _
  rw [keys_bucketFold, show (([] : List (String × ℚ)).map Prod.fst) = [] from rfl,
    show ∀ ks : List String, ks.foldl (fun acc k => if k ∈ acc then acc else acc ++ [k]) [] =
      specKeys ks from fun ks => rfl]
  have hkeq : List.insertionSort rStr (specKeys
      (((List.insertionSort rTrans ts).filter
        (inRangeB (getDateRange today months).1 (getDateRange today months).2)).map
        (fun t => keyOf t.date))) =
    List.insertionSort rStr (specKeys
      ((ts.filter (inRangeB (getDateRange today months).1 (getDateRange today months).2)).map
        (fun t => keyOf t.date))) := by
    refine sortKeys_congr _ _ (specKeys_nodup _) (specKeys_nodup _) ?_
    intro x
    rw [specKeys_mem, specKeys_mem]
    exact (hpermf.map (fun t => keyOf t.date)).mem_iff
  rw [hkeq]
  apply List.map_congr_left
  intro k _
  have hv : (List.lookup k (bucketFold []
      ((List.insertionSort rTrans ts).filter
        (inRangeB (getDateRange today months).1 (getDateRange today months).2)))).getD 0 =
      sumKey (ts.filter
        (inRangeB (getDateRange today months).1 (getDateRange today months).2)) k := by
    rw [show ∀ b k2, (List.lookup k2 (b : List (String × ℚ))).getD 0 = lookupVal b k2 from
      fun b k2 => rfl, lookupVal_bucketFold]
    rw [show lookupVal [] k = 0 from rfl, zero_add]
    simp only [sumKey]
    exact ((hpermf.filter _).map _).sum_eq
  rw [hv]

theorem getEarnings_perm_invariant (today : PyDate) (months : ℕ) {ts tsb : List Trans}
    (h : ts.Perm tsb) : getEarnings today months ts = getEarnings today months tsb := by
  simp only [getEarnings]
  rw [insertionSort_eq_of_perm h]

/-- C9: For every N ≥ 1 and every multiset of transactions presented in any
order, the monthly analyzer sums amounts into buckets keyed "YYYY.MM" exactly
for the transactions dated within the computed range [first day of the month
N months before today, last day of the month before today], ignoring all
transactions outside it, and returns the bucket totals ordered by key
ascending (this is `earningsSpec`); the result is invariant under reordering
the input transactions; and on the documented example (today = 2009-03-10,
months = 1, transactions 2009-02-05 for 10, 2009-02-20 for 5, 2009-01-01 for
100) it yields exactly one bucket "2009.02" with total 15. -/
theorem monthly_analyzer (today : PyDate) (months : ℕ) (_hm : 1 ≤ months)
    (ts tsb : List Trans) (hperm : ts.Perm tsb) :
    getEarnings today months ts = earningsSpec today months ts ∧
    getEarnings today months ts = getEarnings today months tsb ∧
    getEarnings ⟨2009, 3, 10⟩ 1
      [⟨⟨2009, 2, 5⟩, 10, "", ""⟩, ⟨⟨2009, 2, 20⟩, 5, "", ""⟩,
        ⟨⟨2009, 1, 1⟩, 100, "", ""⟩] = [("2009.02", 15)] := by
  refine ⟨getEarnings_eq_earningsSpec today months ts,
    getEarnings_perm_invariant today months hperm, ?_⟩
  with_unfolding_all decide

theorem sumAmounts_append (l1 l2 : List Trans) :
    sumAmounts (l1 ++ l2) = sumAmounts l1 + sumAmounts l2 := by
  simp only [sumAmounts, List.map_append, List.sum_append]

theorem sumAmounts_cons (t : Trans) (l : List Trans) :
    sumAmounts (t :: l) = t.amount + sumAmounts l := by
  simp only [sumAmounts, List.map_cons, List.sum_cons]

theorem sumAmounts_erase (l : List Trans) (t : Trans) (h : t ∈ l) :
    sumAmounts (l.erase t) = sumAmounts l - t.amount := by
  have hp : l.Perm (t :: l.erase t) := List.perm_cons_erase h
  have hs : sumAmounts l = sumAmounts (t :: l.erase t) := (hp.map Trans.amount).sum_eq
  rw [hs, sumAmounts_cons]
  ring

theorem sumAmounts_set (l : List Trans) : ∀ (j : ℕ) (t t2 : Trans), l[j]? = some t →
    sumAmounts (l.set j t2) = sumAmounts l - t.amount + t2.amount := by
  induction l with
  | nil => intro j t t2 h; simp at h
  | cons a as ih =>
    intro j t t2 h
    cases j with
    | zero =>
      simp only [List.getElem?_cons_zero, Option.some.injEq] at h
      subst h
      simp only [List.set_cons_zero, sumAmounts_cons]
      ring
    | succ j =>
      simp only [List.getElem?_cons_succ] at h
      simp only [List.set_cons_succ, sumAmounts_cons, ih j t t2 h]
      ring

theorem set_same_of_getElem? {α : Type} (l : List α) : ∀ (i : ℕ) (x : α),
    l[i]? = some x → l.set i x = l := by
  induction l with
  | nil => intro i x h; simp at h
  | cons a as ih =>
    intro i x h
    cases i with
    | zero =>
      simp only [List.getElem?_cons_zero, Option.some.injEq] at h
      rw [List.set_cons_zero, h]
    | succ i =>
      simp only [List.getElem?_cons_succ] at h
      rw [List.set_cons_succ, ih i x h]

theorem exists_of_findIdx?_some {α : Type} (p : α → Bool) :
    ∀ (l : List α) (st k : ℕ), List.findIdx? p l st = some k → ∃ x ∈ l, p x = true := by
  intro l
  induction l with
  | nil => intro st k h; exact Option.noConfusion h
  | cons a as ih =>
    intro st k h
    rw [List.findIdx?_cons] at h
    by_cases hp : p a = true
    · exact ⟨a, List.mem_cons_self a as, hp⟩
    · rw [if_neg hp] at h
      obtain ⟨x, hx, hpx⟩ := ih (st + 1) k h
      exact ⟨x, List.mem_cons_of_mem a hx, hpx⟩

theorem mem_of_getElem?_some {α : Type} {l : List α} {i : ℕ} {x : α}
    (h : l[i]? = some x) : x ∈ l := by
  obtain ⟨hl, he⟩ := List.getElem?_eq_some.mp h
  rw [← he]
  exact List.getElem_mem hl

theorem name_ne_of_nodup (s : BankState) (hnd : (s.map Account.name).Nodup)
    {i k : ℕ} (hil : i < s.length) (hkl : k < s.length) (hik : ¬(i = k)) :
    ¬((s.get ⟨k, hkl⟩).name = (s.get ⟨i, hil⟩).name) := by
  intro he
  have hkm : k < (s.map Account.name).length := by simpa using hkl
  have him : i < (s.map Account.name).length := by simpa using hil
  have hg : (s.map Account.name).get ⟨k, hkm⟩ = (s.map Account.name).get ⟨i, him⟩ := by
    simp only [List.get_eq_getElem] at he
    simp only [List.get_eq_getElem, List.getElem_map]
    exact he
  have h2 := (List.Nodup.get_inj_iff hnd).mp hg
  exact hik (by simpa using h2.symm)

theorem name_set_map (s : BankState) (i : ℕ) (a a2 : Account)
    (hi : s[i]? = some a) (hn : a2.name = a.name) :
    (s.set i a2).map Account.name = s.map Account.name := by
  rw [List.map_set, hn]
  refine set_same_of_getElem? _ i a.name ?_
  rw [List.getElem?_map, hi]
  rfl

theorem addTransState_some (s : BankState) (i : ℕ) (a : Account) (amt : ℚ) (d : String)
    (dt : PyDate) (hi : s[i]? = some a) :
    addTransState s i amt d dt =
      (s.set i { a with
          transactions := a.transactions ++ [⟨dt, amt, d, a.name⟩]
          balance := a.balance + amt },
       some ⟨dt, amt, d, a.name⟩,
       [Ev.storeMake ⟨dt, amt, d, a.name⟩, Ev.transCreated a.name ⟨dt, amt, d, a.name⟩,
        Ev.balanceChanged a.name]) := by
  unfold addTransState
  rw [hi]
  rfl

theorem addTransState_none (s : BankState) (i : ℕ) (amt : ℚ) (d : String)
    (dt : PyDate) (hi : s[i]? = none) :
    addTransState s i amt d dt = (s, none, []) := by
  unfold addTransState
  rw [hi]

theorem addTransState_wf (s : BankState) (i : ℕ) (amt : ℚ) (d : String) (dt : PyDate)
    (hw : WFBank s) : WFBank (addTransState s i amt d dt).1 := by
  obtain ⟨hnd, hacc⟩ := hw
  cases hi : s[i]? with
  | none => rw [addTransState_none s i amt d dt hi]; exact ⟨hnd, hacc⟩
  | some a =>
    rw [addTransState_some s i a amt d dt hi]
    constructor
    · rw [name_set_map s i a
        { a with
          transactions := a.transactions ++ [⟨dt, amt, d, a.name⟩]
          balance := a.balance + amt } hi rfl]
      exact hnd
    · intro b hb
      rcases List.mem_or_eq_of_mem_set hb with hb | rfl
      · exact hacc b hb
      · obtain ⟨hpar, hbal⟩ := hacc a (mem_of_getElem?_some hi)
        constructor
        · intro t2 ht2
          rcases List.mem_append.mp ht2 with h | h
          · exact hpar t2 h
          · rw [List.mem_singleton.mp h]
        · show a.balance + amt = sumAmounts (a.transactions ++ [⟨dt, amt, d, a.name⟩])
          rw [sumAmounts_append, hbal, sumAmounts_cons]
          show sumAmounts a.transactions + amt =
            sumAmounts a.transactions + (amt + sumAmounts [])
          rw [show sumAmounts [] = 0 from rfl, add_zero]

theorem removeTrans_mem (a : Account) (t : Trans) (hm : t ∈ a.transactions) :
    a.removeTrans t = Except.ok
      ({ a with transactions := a.transactions.erase t, balance := a.balance - t.amount },
       [Ev.storeRemoveTrans t, Ev.transRemoved a.name t, Ev.balanceChanged a.name]) := by
  unfold Account.removeTrans
  rw [if_pos hm]

theorem removeTrans_not_mem (a : Account) (t : Trans) (hm : ¬(t ∈ a.transactions)) :
    a.removeTrans t = Except.error (BankErr.invalidTransaction a.name) := by
  unfold Account.removeTrans
  rw [if_neg hm]

theorem removeTransState_none (s : BankState) (i : ℕ) (t : Trans) (hi : s[i]? = none) :
    removeTransState s i t = s := by
  unfold removeTransState
  rw [hi]

theorem removeTransState_of_mem (s : BankState) (i : ℕ) (a : Account) (t : Trans)
    (hi : s[i]? = some a) (hm : t ∈ a.transactions) :
    removeTransState s i t = s.set i
      { a with transactions := a.transactions.erase t, balance := a.balance - t.amount } := by
  unfold removeTransState
  rw [hi]
  show (match a.removeTrans t with
    | Except.error _ => s
    | Except.ok r => List.set s i r.1) = _
  rw [removeTrans_mem a t hm]

theorem removeTransState_of_not_mem (s : BankState) (i : ℕ) (a : Account) (t : Trans)
    (hi : s[i]? = some a) (hm : ¬(t ∈ a.transactions)) :
    removeTransState s i t = s := by
  unfold removeTransState
  rw [hi]
  show (match a.removeTrans t with
    | Except.error _ => s
    | Except.ok r => List.set s i r.1) = _
  rw [removeTrans_not_mem a t hm]

theorem removeTransState_wf (s : BankState) (i : ℕ) (t : Trans)
    (hw : WFBank s) : WFBank (removeTransState s i t) := by
  obtain ⟨hnd, hacc⟩ := hw
  cases hi : s[i]? with
  | none => rw [removeTransState_none s i t hi]; exact ⟨hnd, hacc⟩
  | some a =>
    by_cases hm : t ∈ a.transactions
    · rw [removeTransState_of_mem s i a t hi hm]
      constructor
      · rw [name_set_map s i a
          { a with
            transactions := a.transactions.erase t
            balance := a.balance - t.amount } hi rfl]
        exact hnd
      · intro b hb
        rcases List.mem_or_eq_of_mem_set hb with hb | rfl
        · exact hacc b hb
        · obtain ⟨hpar, hbal⟩ := hacc a (mem_of_getElem?_some hi)
          constructor
          · intro t2 ht2
            exact hpar t2 (List.mem_of_mem_erase ht2)
          · show a.balance - t.amount = sumAmounts (a.transactions.erase t)
            rw [sumAmounts_erase _ _ hm, hbal]
    · rw [removeTransState_of_not_mem s i a t hi hm]
      exact ⟨hnd, hacc⟩

theorem transferState_eval (s : BankState) (di si : ℕ) (d0 s0 : Account) (amt : ℚ)
    (desc : String) (dt : PyDate) (hd : s[di]? = some d0) (hs : s[si]? = some s0)
    (hne : ¬(si = di)) :
    transferState s di si amt desc dt =
      ((s.set si { s0 with
          transactions := s0.transactions ++
            [⟨dt, -amt, "Transfer to " ++ d0.name ++ extraDesc desc, s0.name⟩]
          balance := s0.balance + -amt }).set di
        { d0 with
          transactions := d0.transactions ++
            [⟨dt, amt, "Transfer from " ++ s0.name ++ extraDesc desc, d0.name⟩]
          balance := d0.balance + amt },
       some (⟨dt, amt, "Transfer from " ++ s0.name ++ extraDesc desc, d0.name⟩,
             ⟨dt, -amt, "Transfer to " ++ d0.name ++ extraDesc desc, s0.name⟩),
       [Ev.storeMake ⟨dt, -amt, "Transfer to " ++ d0.name ++ extraDesc desc, s0.name⟩,
        Ev.transCreated s0.name ⟨dt, -amt, "Transfer to " ++ d0.name ++ extraDesc desc, s0.name⟩,
        Ev.balanceChanged s0.name,
        Ev.storeMake ⟨dt, amt, "Transfer from " ++ s0.name ++ extraDesc desc, d0.name⟩,
        Ev.transCreated d0.name ⟨dt, amt, "Transfer from " ++ s0.name ++ extraDesc desc, d0.name⟩,
        Ev.balanceChanged d0.name]) := by
  unfold transferState
  rw [hd, hs]
  show (let extra := extraDesc desc
    let r1 := addTransState s si (-amt) ("Transfer to " ++ d0.name ++ extra) dt
    let r2 := addTransState r1.1 di amt ("Transfer from " ++ s0.name ++ extra) dt
    (r2.1, (r2.2.1.bind fun tD => r1.2.1.map fun tS => (tD, tS)), r1.2.2 ++ r2.2.2)) = _
  simp only [addTransState_some s si s0 (-amt) ("Transfer to " ++ d0.name ++ extraDesc desc)
    dt hs]
  rw [addTransState_some (s.set si { s0 with
      transactions := s0.transactions ++
        [⟨dt, -amt, "Transfer to " ++ d0.name ++ extraDesc desc, s0.name⟩]
      balance := s0.balance + -amt }) di d0 amt
    ("Transfer from " ++ s0.name ++ extraDesc desc) dt
    (by rw [List.getElem?_set_ne hne]; exact hd)]
  rfl

theorem transferState_wf (s : BankState) (di si : ℕ) (amt : ℚ) (desc : String)
    (dt : PyDate) (hw : WFBank s) : WFBank (transferState s di si amt desc dt).1 := by
  unfold transferState
  cases hd : s[di]? with
  | none =>
    cases hs : s[si]? with
    | none => exact hw
    | some s0 => exact hw
  | some d0 =>
    cases hs : s[si]? with
    | none => exact hw
    | some s0 =>
      exact addTransState_wf _ di amt _ dt (addTransState_wf s si (-amt) _ dt hw)

theorem editAmount_eval (s : BankState) (i j : ℕ) (a : Account) (t : Trans) (amt : ℚ)
    (hi : s[i]? = some a) (hj : a.transactions[j]? = some t) :
    editAmount s i j amt =
      (s.set i { a with transactions := a.transactions.set j { t with amount := amt } }).map
        (fun b => if { t with amount := amt } ∈ b.transactions then
          { b with balance := b.balance + (amt - t.amount) } else b) := by
  unfold editAmount
  rw [hi]
  show (match a.transactions[j]? with
    | none => s
    | some t0 =>
      let delta := amt - t0.amount
      let t2 := { t0 with amount := amt }
      let s1 := s.set i { a with transactions := a.transactions.set j t2 }
      s1.map (fun b : Account =>
        if t2 ∈ b.transactions then { b with balance := b.balance + delta } else b)) = _
  rw [hj]

theorem editAmount_none (s : BankState) (i j : ℕ) (amt : ℚ) (hi : s[i]? = none) :
    editAmount s i j amt = s := by
  unfold editAmount
  rw [hi]

theorem editAmount_noTrans (s : BankState) (i j : ℕ) (a : Account) (amt : ℚ)
    (hi : s[i]? = some a) (hj : a.transactions[j]? = none) :
    editAmount s i j amt = s := by
  unfold editAmount
  rw [hi]
  show (match a.transactions[j]? with
    | none => s
    | some t0 =>
      let delta := amt - t0.amount
      let t2 := { t0 with amount := amt }
      let s1 := s.set i { a with transactions := a.transactions.set j t2 }
      s1.map (fun b : Account =>
        if t2 ∈ b.transactions then { b with balance := b.balance + delta } else b)) = _
  rw [hj]

theorem editAmount_wf (s : BankState) (i j : ℕ) (amt : ℚ) (hw : WFBank s) :
    WFBank (editAmount s i j amt) := by
  obtain ⟨hnd, hacc⟩ := hw
  cases hi : s[i]? with
  | none => rw [editAmount_none s i j amt hi]; exact ⟨hnd, hacc⟩
  | some a =>
    cases hj : a.transactions[j]? with
    | none => rw [editAmount_noTrans s i j a amt hi hj]; exact ⟨hnd, hacc⟩
    | some t =>
      rw [editAmount_eval s i j a t amt hi hj]
      obtain ⟨hilen, hieq⟩ := List.getElem?_eq_some.mp hi
      obtain ⟨hjlen, hjeq⟩ := List.getElem?_eq_some.mp hj
      have hamem : a ∈ s := mem_of_getElem?_some hi
      have htmem : t ∈ a.transactions := mem_of_getElem?_some hj
      have htpar : t.parent = a.name := (hacc a hamem).1 t htmem
      constructor
      · rw [List.map_map]
        have hmc : ∀ b ∈ s.set i
            { a with transactions := a.transactions.set j { t with amount := amt } },
            (Account.name ∘ (fun b : Account =>
              if { t with amount := amt } ∈ b.transactions then
                { b with balance := b.balance + (amt - t.amount) } else b)) b =
            Account.name b := by
          intro b _
          by_cases hmem : { t with amount := amt } ∈ b.transactions
          · simp only [Function.comp, if_pos hmem]
          · simp only [Function.comp, if_neg hmem]
        rw [List.map_congr_left hmc]
        rw [name_set_map s i a
          { a with transactions := a.transactions.set j { t with amount := amt } } hi rfl]
        exact hnd
      · intro b hb
        obtain ⟨b0, hb0, rfl⟩ := List.mem_map.mp hb
        obtain ⟨k, hk, hkeq⟩ := List.mem_iff_getElem.mp hb0
        by_cases hki : k = i
        · subst hki
          rw [List.getElem_set_self hk] at hkeq
          subst hkeq
          have hjlen2 : j < (a.transactions.set j { t with amount := amt }).length := by
            rw [List.length_set]; exact hjlen
          have ht2mem : { t with amount := amt } ∈
              a.transactions.set j { t with amount := amt } :=
            List.mem_iff_getElem.mpr ⟨j, hjlen2, List.getElem_set_self hjlen2⟩
          rw [if_pos ht2mem]
          constructor
          · intro t2 ht2
            rcases List.mem_or_eq_of_mem_set ht2 with h | rfl
            · exact (hacc a hamem).1 t2 h
            · exact htpar
          · show a.balance + (amt - t.amount) =
              sumAmounts (a.transactions.set j { t with amount := amt })
            rw [sumAmounts_set a.transactions j t { t with amount := amt } hj,
              (hacc a hamem).2]
            show sumAmounts a.transactions + (amt - t.amount) =
              sumAmounts a.transactions - t.amount + amt
            ring
        · have hklen : k < s.length := by simpa using hk
          rw [List.getElem_set_ne (fun he => hki he.symm) hk] at hkeq
          have hb0mem : b0 ∈ s := by rw [← hkeq]; exact List.getElem_mem hklen
          have hname : ¬(b0.name = a.name) := by
            have hnn := name_ne_of_nodup s hnd hilen hklen (fun he => hki he.symm)
            simp only [List.get_eq_getElem] at hnn
            rw [hkeq, hieq] at hnn
            exact hnn
          have ht2notin : ¬({ t with amount := amt } ∈ b0.transactions) := by
            intro hmem
            have hp2 : ({ t with amount := amt } : Trans).parent = b0.name :=
              (hacc b0 hb0mem).1 _ hmem
            exact hname (by rw [← hp2]; exact htpar)
          rw [if_neg ht2notin]
          exact hacc b0 hb0mem

theorem editAmount_locality (s : BankState) (i j : ℕ) (amt : ℚ) (k : ℕ)
    (hk : ¬(k = i)) (hw : WFBank s) : (editAmount s i j amt)[k]? = s[k]? := by
  obtain ⟨hnd, hacc⟩ := hw
  cases hi : s[i]? with
  | none => rw [editAmount_none s i j amt hi]
  | some a =>
    cases hj : a.transactions[j]? with
    | none => rw [editAmount_noTrans s i j a amt hi hj]
    | some t =>
      rw [editAmount_eval s i j a t amt hi hj]
      rw [List.getElem?_map, List.getElem?_set_ne (fun he => hk he.symm)]
      obtain ⟨hilen, hieq⟩ := List.getElem?_eq_some.mp hi
      have hamem : a ∈ s := mem_of_getElem?_some hi
      have htmem : t ∈ a.transactions := mem_of_getElem?_some hj
      have htpar : t.parent = a.name := (hacc a hamem).1 t htmem
      cases hbk : s[k]? with
      | none => rfl
      | some b =>
        obtain ⟨hklen, hkeq⟩ := List.getElem?_eq_some.mp hbk
        have hbmem : b ∈ s := mem_of_getElem?_some hbk
        have hname : ¬(b.name = a.name) := by
          have hnn := name_ne_of_nodup s hnd hilen hklen (fun he => hk he.symm)
          simp only [List.get_eq_getElem] at hnn
          rw [hkeq, hieq] at hnn
          exact hnn
        have ht2notin : ¬({ t with amount := amt } ∈ b.transactions) := by
          intro hmem
          have hp2 : ({ t with amount := amt } : Trans).parent = b.name :=
            (hacc b hbmem).1 _ hmem
          exact hname (by rw [← hp2]; exact htpar)
        show some (if { t with amount := amt } ∈ b.transactions then
          { b with balance := b.balance + (amt - t.amount) } else b) = some b
        rw [if_neg ht2notin]

theorem applyOp_wf (s : BankState) (op : BankOp) (hw : WFBank s) :
    WFBank (applyOp s op) := by
  cases op with
  | add i amt d dt => exact addTransState_wf s i amt d dt hw
  | transfer di si amt d dt => exact transferState_wf s di si amt d dt hw
  | removeT i t => exact removeTransState_wf s i t hw
  | edit i j amt => exact editAmount_wf s i j amt hw

theorem applyOps_wf (ops : List BankOp) : ∀ s : BankState, WFBank s →
    WFBank (applyOps s ops) := by
  induction ops with
  | nil => intro s hw; exact hw
  | cons op ops ih =>
    intro s hw
    exact ih (applyOp s op) (applyOp_wf s op hw)

theorem monthly_analyzer_witness :
    getEarnings ⟨2009, 3, 10⟩ 1
      [⟨⟨2009, 2, 5⟩, 10, "", ""⟩, ⟨⟨2009, 2, 20⟩, 5, "", ""⟩,
        ⟨⟨2009, 1, 1⟩, 100, "", ""⟩] = [("2009.02", 15)] :=
  (monthly_analyzer ⟨2009, 3, 10⟩ 1 (by norm_num)
    [⟨⟨2009, 2, 5⟩, 10, "", ""⟩, ⟨⟨2009, 2, 20⟩, 5, "", ""⟩,
      ⟨⟨2009, 1, 1⟩, 100, "", ""⟩]
    [⟨⟨2009, 2, 5⟩, 10, "", ""⟩, ⟨⟨2009, 2, 20⟩, 5, "", ""⟩,
      ⟨⟨2009, 1, 1⟩, 100, "", ""⟩]
    (List.Perm.refl _)).2.2

/-- C1: Over any well-formed account list (distinct sibling names, transactions
parented to their owning account, balances matching their lists), after any
sequence of AddTransaction, transfer, RemoveTransaction and in-place
SetAmount-edit operations, every account's balance equals the sum of the
amounts of the transactions in its list; moreover an in-place amount edit on
account `i` leaves every other account of the list (balance included)
unchanged, because the published delta is consumed only by accounts that
contain the updated transaction. -/
theorem balance_invariant (s : BankState) (hw : WFBank s) :
    (∀ ops : List BankOp, ∀ a ∈ applyOps s ops, a.balance = sumAmounts a.transactions) ∧
    (∀ i j : ℕ, ∀ amt : ℚ, ∀ k : ℕ, ¬(k = i) → (editAmount s i j amt)[k]? = s[k]?) := by
  constructor
  · intro ops a ha
    exact ((applyOps_wf ops s hw).2 a ha).2
  · intro i j amt k hk
    exact editAmount_locality s i j amt k hk hw

theorem balance_invariant_witness :
    WFBank [⟨"A", 0, []⟩] ∧
    ((∀ ops : List BankOp, ∀ a ∈ applyOps [⟨"A", 0, []⟩] ops,
        a.balance = sumAmounts a.transactions) ∧
     (∀ i j : ℕ, ∀ amt : ℚ, ∀ k : ℕ, ¬(k = i) →
        (editAmount [⟨"A", 0, []⟩] i j amt)[k]? = [(⟨"A", 0, []⟩ : Account)][k]?)) :=
  ⟨by unfold WFBank; with_unfolding_all decide,
   balance_invariant _ (by unfold WFBank; with_unfolding_all decide)⟩

/-- C6 counterexample: the spec says renaming an account to its own current
name succeeds, but `Account.SetName` raises `AccountAlreadyExists` whenever
`AccountIndex` finds any account bearing the new name — and the scan includes
the account being renamed itself, so a self-rename always fails. -/
theorem rename_self_cex :
    renameState [⟨"A", 0, []⟩] 0 "A" =
      some (Except.error (BankErr.accountAlreadyExists "A")) := by
  rfl

/-- C6 (amended): renaming the account at index `i` to `n` fails with
`AccountAlreadyExists` exactly when some account of the list — the account
being renamed included — already bears the name `n` (so a self-rename fails
too); the failure path mutates nothing; and when no account bears `n` the
rename succeeds, updating exactly this account's name and publishing the
rename event carrying (oldName, self). -/
theorem account_rename (s : BankState) (i : ℕ) (a : Account) (n : String)
    (hi : s[i]? = some a) :
    (renameState s i n = some (Except.error (BankErr.accountAlreadyExists n)) ↔
      ∃ b ∈ s, b.name = n) ∧
    ((∀ b ∈ s, ¬(b.name = n)) →
      renameState s i n =
        some (Except.ok (s.set i { a with name := n }, Ev.acctRenamed a.name n))) := by
  have hidx : accountIndex s n = -1 ↔ ∀ b ∈ s, ¬(b.name = n) := by
    unfold accountIndex
    cases hf : s.findIdx? (fun b => b.name == n) with
    | none =>
      simp only
      constructor
      · intro _ b hb
        have h2 := List.findIdx?_eq_none_iff.mp hf b hb
        simpa using h2
      · intro _
        trivial
    | some k =>
      simp only
      constructor
      · intro hc
        exact absurd hc (by omega)
      · intro hall
        obtain ⟨x, hx, hpx⟩ := exists_of_findIdx?_some _ s 0 k hf
        exact absurd (by simpa using hpx) (hall x hx)
  unfold renameState
  rw [hi]
  simp only [Option.map_some']
  by_cases hall : ∀ b ∈ s, ¬(b.name = n)
  · have hcond : ¬(accountIndex s n ≠ -1) := fun hc => hc (hidx.mpr hall)
    rw [if_neg hcond]
    constructor
    · constructor
      · intro h
        exact absurd (Option.some.inj h) (fun he => Except.noConfusion he)
      · rintro ⟨b, hb, hbn⟩
        exact absurd hbn (hall b hb)
    · intro _
      rfl
  · have hcond : accountIndex s n ≠ -1 := fun he => hall (hidx.mp he)
    rw [if_pos hcond]
    constructor
    · constructor
      · intro _
        by_contra hno
        exact hall (fun b hb hbn => hno ⟨b, hb, hbn⟩)
      · intro _
        rfl
    · intro hall2
      exact absurd hall2 hall

theorem account_rename_witness :
    ([(⟨"A", 0, []⟩ : Account), ⟨"B", 0, []⟩][0]? = some ⟨"A", 0, []⟩) ∧
    ((renameState [⟨"A", 0, []⟩, ⟨"B", 0, []⟩] 0 "C" =
        some (Except.error (BankErr.accountAlreadyExists "C")) ↔
      ∃ b ∈ [(⟨"A", 0, []⟩ : Account), ⟨"B", 0, []⟩], b.name = "C") ∧
     ((∀ b ∈ [(⟨"A", 0, []⟩ : Account), ⟨"B", 0, []⟩], ¬(b.name = "C")) →
      renameState [⟨"A", 0, []⟩, ⟨"B", 0, []⟩] 0 "C" =
        some (Except.ok ([⟨"C", 0, []⟩, ⟨"B", 0, []⟩], Ev.acctRenamed "A" "C")))) :=
  ⟨rfl, account_rename [⟨"A", 0, []⟩, ⟨"B", 0, []⟩] 0 ⟨"A", 0, []⟩ "C" rfl⟩

/-- C7: `RemoveTransaction` fails with `InvalidTransaction` exactly when the
transaction is not a member (value equality, Python `in`) of the account's
list, and in that case the account list is left entirely unchanged — the
check precedes every mutation; when the transaction is a member, the result
deletes it from the store, publishes the removal event scoped by account
name, removes the first equal element from the list and decrements the
balance by the transaction's amount, in that order. -/
theorem remove_transaction (s : BankState) (i : ℕ) (a : Account) (t : Trans)
    (hi : s[i]? = some a) :
    (a.removeTrans t = Except.error (BankErr.invalidTransaction a.name) ↔
      ¬(t ∈ a.transactions)) ∧
    (¬(t ∈ a.transactions) → removeTransState s i t = s) ∧
    (t ∈ a.transactions → a.removeTrans t = Except.ok
      ({ a with transactions := a.transactions.erase t, balance := a.balance - t.amount },
       [Ev.storeRemoveTrans t, Ev.transRemoved a.name t, Ev.balanceChanged a.name])) := by
  refine ⟨⟨?_, removeTrans_not_mem a t⟩,
    removeTransState_of_not_mem s i a t hi, removeTrans_mem a t⟩
  intro h hm
  rw [removeTrans_mem a t hm] at h
  exact Except.noConfusion h

theorem remove_transaction_witness :
    ([(⟨"A", 5, [⟨⟨2008, 1, 6⟩, 5, "x", "A"⟩]⟩ : Account)][0]? =
      some ⟨"A", 5, [⟨⟨2008, 1, 6⟩, 5, "x", "A"⟩]⟩) ∧
    ((Account.removeTrans ⟨"A", 5, [⟨⟨2008, 1, 6⟩, 5, "x", "A"⟩]⟩ ⟨⟨2008, 1, 6⟩, 5, "x", "A"⟩ =
        Except.error (BankErr.invalidTransaction "A") ↔
      ¬(⟨⟨2008, 1, 6⟩, 5, "x", "A"⟩ ∈
        (⟨"A", 5, [⟨⟨2008, 1, 6⟩, 5, "x", "A"⟩]⟩ : Account).transactions)) ∧
     (¬(⟨⟨2008, 1, 6⟩, 5, "x", "A"⟩ ∈
        (⟨"A", 5, [⟨⟨2008, 1, 6⟩, 5, "x", "A"⟩]⟩ : Account).transactions) →
      removeTransState [⟨"A", 5, [⟨⟨2008, 1, 6⟩, 5, "x", "A"⟩]⟩] 0 ⟨⟨2008, 1, 6⟩, 5, "x", "A"⟩ =
        [⟨"A", 5, [⟨⟨2008, 1, 6⟩, 5, "x", "A"⟩]⟩]) ∧
     (⟨⟨2008, 1, 6⟩, 5, "x", "A"⟩ ∈
        (⟨"A", 5, [⟨⟨2008, 1, 6⟩, 5, "x", "A"⟩]⟩ : Account).transactions →
      Account.removeTrans ⟨"A", 5, [⟨⟨2008, 1, 6⟩, 5, "x", "A"⟩]⟩ ⟨⟨2008, 1, 6⟩, 5, "x", "A"⟩ =
        Except.ok
          ({ (⟨"A", 5, [⟨⟨2008, 1, 6⟩, 5, "x", "A"⟩]⟩ : Account) with
              transactions :=
                (⟨"A", 5, [⟨⟨2008, 1, 6⟩, 5, "x", "A"⟩]⟩ : Account).transactions.erase
                  ⟨⟨2008, 1, 6⟩, 5, "x", "A"⟩,
              balance := (5 : ℚ) - 5 },
           [Ev.storeRemoveTrans ⟨⟨2008, 1, 6⟩, 5, "x", "A"⟩, Ev.transRemoved "A"
              ⟨⟨2008, 1, 6⟩, 5, "x", "A"⟩, Ev.balanceChanged "A"]))) :=
  ⟨rfl, remove_transaction [⟨"A", 5, [⟨⟨2008, 1, 6⟩, 5, "x", "A"⟩]⟩] 0
    ⟨"A", 5, [⟨⟨2008, 1, 6⟩, 5, "x", "A"⟩]⟩ ⟨⟨2008, 1, 6⟩, 5, "x", "A"⟩ rfl⟩

/-- C8: a transfer of amount `a` into destination `di` from source `si`
(distinct live accounts) creates exactly two transactions — the mirror with
amount `-a` entering the source first — whose amounts sum to zero; the
destination balance rises by `a`, the source balance falls by `a`, every
other account is untouched, the returned pair is (destination transaction,
mirror transaction), and the descriptions are the auto-generated
"Transfer from/to <other account>" with the parenthesised caller description
appended. -/
theorem transfer_pair (s : BankState) (di si : ℕ) (d0 s0 : Account) (amt : ℚ)
    (desc : String) (dt : PyDate) (hd : s[di]? = some d0) (hs : s[si]? = some s0)
    (hne : ¬(di = si)) :
    ((transferState s di si amt desc dt).2.1.map
        (fun p => p.1.amount + p.2.amount)) = some 0 ∧
    (transferState s di si amt desc dt).2.1 =
      some (⟨dt, amt, "Transfer from " ++ s0.name ++ extraDesc desc, d0.name⟩,
            ⟨dt, -amt, "Transfer to " ++ d0.name ++ extraDesc desc, s0.name⟩) ∧
    (transferState s di si amt desc dt).1[di]? =
      some { d0 with
        transactions := d0.transactions ++
          [⟨dt, amt, "Transfer from " ++ s0.name ++ extraDesc desc, d0.name⟩]
        balance := d0.balance + amt } ∧
    (transferState s di si amt desc dt).1[si]? =
      some { s0 with
        transactions := s0.transactions ++
          [⟨dt, -amt, "Transfer to " ++ d0.name ++ extraDesc desc, s0.name⟩]
        balance := s0.balance - amt } ∧
    (∀ k : ℕ, ¬(k = di) → ¬(k = si) →
      (transferState s di si amt desc dt).1[k]? = s[k]?) ∧
    (transferState s di si amt desc dt).2.2 =
      [Ev.storeMake ⟨dt, -amt, "Transfer to " ++ d0.name ++ extraDesc desc, s0.name⟩,
       Ev.transCreated s0.name ⟨dt, -amt, "Transfer to " ++ d0.name ++ extraDesc desc, s0.name⟩,
       Ev.balanceChanged s0.name,
       Ev.storeMake ⟨dt, amt, "Transfer from " ++ s0.name ++ extraDesc desc, d0.name⟩,
       Ev.transCreated d0.name ⟨dt, amt, "Transfer from " ++ s0.name ++ extraDesc desc, d0.name⟩,
       Ev.balanceChanged d0.name] := by
  have hne2 : ¬(si = di) := fun he => hne he.symm
  have hdl : di < s.length := (List.getElem?_eq_some.mp hd).1
  have hsl : si < s.length := (List.getElem?_eq_some.mp hs).1
  rw [transferState_eval s di si d0 s0 amt desc dt hd hs hne2]
  refine ⟨?_, rfl, ?_, ?_, ?_, rfl⟩
  · show Option.map (fun p : Trans × Trans => p.1.amount + p.2.amount)
      (some (⟨dt, amt, "Transfer from " ++ s0.name ++ extraDesc desc, d0.name⟩,
             ⟨dt, -amt, "Transfer to " ++ d0.name ++ extraDesc desc, s0.name⟩)) = some 0
    rw [Option.map_some']
    show some (amt + -amt) = some (0 : ℚ)
    rw [add_neg_cancel]
  · show (((s.set si _).set di _))[di]? = _
    rw [List.getElem?_set_self (by rw [List.length_set]; exact hdl)]
  · show (((s.set si _).set di _))[si]? = _
    rw [List.getElem?_set_ne hne, List.getElem?_set_self hsl,
      show s0.balance + -amt = s0.balance - amt from (sub_eq_add_neg s0.balance amt).symm]
  · intro k hkd hks
    show (((s.set si _).set di _))[k]? = s[k]?
    rw [List.getElem?_set_ne (fun he => hkd he.symm),
      List.getElem?_set_ne (fun he => hks he.symm)]

theorem transfer_pair_witness :
    ([(⟨"D", 1, []⟩ : Account), ⟨"S", 2, []⟩][0]? = some ⟨"D", 1, []⟩) ∧
    ([(⟨"D", 1, []⟩ : Account), ⟨"S", 2, []⟩][1]? = some ⟨"S", 2, []⟩) ∧
    ¬((0 : ℕ) = 1) ∧
    ((transferState [⟨"D", 1, []⟩, ⟨"S", 2, []⟩] 0 1 3 "" ⟨2008, 1, 6⟩).2.1.map
        (fun p => p.1.amount + p.2.amount)) = some 0 :=
  ⟨rfl, rfl, by decide,
    (transfer_pair [⟨"D", 1, []⟩, ⟨"S", 2, []⟩] 0 1 ⟨"D", 1, []⟩ ⟨"S", 2, []⟩ 3 "" ⟨2008, 1, 6⟩
      rfl rfl (by decide)).1⟩

end WxBanker
